import Mathlib

/-!
Shallow embedding of `x84/bbs/msgbase.py`, the message-base layer of the x/84
bulletin-board system, together with proofs about its save pipeline.

The key-value store (`DBProxy`) is modelled as in-memory association lists
gathered in a `DB` record: the `msgbase` table keyed by message index, the
`tags` table keyed by tag string, and the per-network transit and outbound
queue tables keyed by the network tag.  Locks are not modelled: execution is
sequential, matching the acquire/release bracketing of the source.  The ini
configuration consulted by the dispatch block is modelled by `Config`, whose
fields hold the raw comma-separated option strings exactly as the source reads
them.  `datetime.now()` is modelled by an explicit `now : Nat` argument, and
the recursion of `Msg.save` (a parent re-save and the dispatch re-save) is made
total with an explicit fuel argument: fuel exhaustion returns `none`, a raised
Python exception returns `some (Except.error e)` carrying the database state at
the raise, and a normal return gives `some (Except.ok (db, msg))`.
-/

namespace Msgbase

section AssocOps

variable {κ α : Type} [DecidableEq κ]

/-- Write to an association list the way a Python dict assignment behaves:
replace the value at an existing key, otherwise append a fresh entry. -/
def setAssoc (l : List (κ × α)) (k : κ) (v : α) : List (κ × α) :=
  if l.any (fun p => decide (p.1 = k)) then
    l.map (fun p => if p.1 = k then (k, v) else p)
  else l ++ [(k, v)]

/-- Read from an association list: the value of the first entry with the key. -/
def getAssoc (l : List (κ × α)) (k : κ) : Option α :=
  (l.find? (fun p => decide (p.1 = k))).map Prod.snd

/-- The keys of an association list. -/
def keysOf (l : List (κ × α)) : List κ := l.map Prod.fst

end AssocOps

/-- The record spec for messages held in the msgbase, after `class Msg`:
`idx` is absent until first save, `ctime` is the construction time, `stime`
the first-persist time, then envelope fields, the tag set, and the thread
links `children` and `parent`.  Python sets are modelled as lists. -/
structure Msg where
  idx : Option Nat
  ctime : Nat
  stime : Option Nat
  author : Option String
  recipient : Option String
  subject : String
  body : String
  tags : List String
  children : List Nat
  parent : Option Nat
deriving DecidableEq, Repr

/-- The ini options consumed by the save pipeline: `msg.network_tags`,
`msg.server_tags` and `msg.origin_line` (each `none` when the option is not
set), and `system.bbsname`.  The comma-separated option strings are kept raw,
as `ConfigParser.get` returns them. -/
structure Config where
  network_tags : Option String
  server_tags : Option String
  origin_line : Option String
  bbsname : String
deriving DecidableEq, Repr

/-- The whole key-value store: the message table, the tag table, and the
per-network transit and outbound queue tables (keyed here by the network tag
whose `msgnet_<tag>` ini section names them). -/
structure DB where
  msgdb : List (Nat × Msg)
  tagdb : List (String × List Nat)
  transdb : List (String × List (Nat × Nat))
  queuedb : List (String × List (Nat × String))
deriving DecidableEq, Repr

/-- The exceptions the save pipeline can raise: the `AssertionError` from
`assert self.parent not in self.children`, and the `KeyError` from
`get_msg` on a missing parent index. -/
inductive SaveErr where
  | assertFail
  | keyError (k : Nat)
deriving DecidableEq, Repr

/-- Name of the message table global, `MSGDB = 'msgbase'`. -/
def MSGDB : String := "msgbase"

/-- Name of the tag table global, `TAGDB = 'tags'`. -/
def TAGDB : String := "tags"

/-- `get_origin_line`: the configured `msg.origin_line` if present, otherwise
`Sent from <bbsname>`. -/
def get_origin_line (cfg : Config) : String :=
  match cfg.origin_line with
  | some s => s
  | none => "Sent from " ++ cfg.bbsname

/-- `format_origin_line`: the origin line prefixed by a separator. -/
def format_origin_line (cfg : Config) : String :=
  "\r\n---\r\n" ++ get_origin_line cfg

/-- `get_msg(idx)`: the Msg record at index `idx` of the message table;
`none` models the `KeyError` on an absent key. -/
def get_msg (db : DB) (idx : Nat) : Option Msg := getAssoc db.msgdb idx

/-- `list_msgs(tags)`: with one or more tags, the union of the tag-table
member sets of those tags that are present in the tag table; otherwise all
keys of the message table. -/
def list_msgs (db : DB) (tags : Option (List String)) : List Nat :=
  match tags with
  | some ts =>
    if ts.length ≠ 0 then
      (ts.filter (fun t => db.tagdb.any (fun p => decide (p.1 = t)))).flatMap
        (fun t => (getAssoc db.tagdb t).getD [])
    else keysOf db.msgdb
  | none => keysOf db.msgdb

/-- `list_tags` as written opens the tag table through `DBProxy(TABDB)`, but
the module binds only the globals `MSGDB` and `TAGDB`; the name `TABDB` is
defined nowhere, so the function raises `NameError` before touching the
database, on every call and every database state. -/
def list_tags (_db : DB) : Except String (List String) :=
  Except.error "NameError: name TABDB is not defined"

/-- `new = self.idx is None or self._stime is None` at the top of `Msg.save`. -/
def isNewMsg (m : Msg) : Bool := m.idx.isNone || m.stime.isNone

/-- The index minted for a new message:
`max([int(key) for key in db_msg.keys()] or [-1]) + 1`. -/
def nextIdx (db : DB) : Nat :=
  match db.msgdb with
  | [] => 0
  | l => ((l.map Prod.fst).foldl Nat.max 0) + 1

/-- The first block of `Msg.save`: decide newness, mint the index and stamp
the times for a new message, and write the record into the message table.
Returns the updated table, the updated message, and the `new` flag. -/
def persistStep (db : DB) (m : Msg) (ctime : Option Nat) (now : Nat) :
    DB × Msg × Bool :=
  let new := isNewMsg m
  let m1 := if new then
      { m with idx := some (nextIdx db), ctime := ctime.getD m.ctime,
               stime := some (ctime.getD now) }
    else m
  ({ db with msgdb := setAssoc db.msgdb (m1.idx.getD 0) m1 }, m1, new)

/-- The tag block of `Msg.save`: walk every entry of the tag table, adding the
message index where the tag is carried and missing, removing it where the tag
is not carried but present; then create an entry `{idx}` for every carried tag
the table does not know. -/
def reconcileTags (tagdb : List (String × List Nat)) (tags : List String)
    (i : Nat) : List (String × List Nat) :=
  (tagdb.map (fun p =>
    if tags.contains p.1 && !(p.2.contains i) then (p.1, p.2 ++ [i])
    else if !(tags.contains p.1) && p.2.contains i then
      (p.1, p.2.filter (fun j => decide (j ≠ i)))
    else p))
  ++ (tags.filter (fun t => !(tagdb.any (fun p => decide (p.1 = t))))).map
      (fun t => (t, [i]))

/-- The condition of `assert self.parent not in self.children`: violated when
the parent is set and listed among the children. -/
def assertViolated (m : Msg) : Bool :=
  match m.parent with
  | some p => m.children.contains p
  | none => false

/-- Python `set.add` on a list-modelled set. -/
def addId (l : List Nat) (x : Nat) : List Nat :=
  if l.contains x then l else l ++ [x]

/-- Write into a two-level table (network tag, then key): used for the
per-network transit and outbound queue tables. -/
def setTable {α : Type} (tbl : List (String × List (Nat × α))) (t : String)
    (k : Nat) (v : α) : List (String × List (Nat × α)) :=
  setAssoc tbl t (setAssoc ((getAssoc tbl t).getD []) k v)

/-- Python `s.split(',')` on the character list: splitting on every comma,
never empty — the empty string yields `[""]`, a trailing comma an empty last
field. -/
def splitCommaChars : List Char → List (List Char)
  | [] => [[]]
  | c :: rest =>
    if c = ',' then [] :: splitCommaChars rest
    else
      match splitCommaChars rest with
      | [] => [[c]]
      | h :: t => (c :: h) :: t

/-- Python `str.strip()`: drop leading and trailing whitespace. -/
def pyStrip (s : String) : String :=
  String.mk
    (((s.data.dropWhile Char.isWhitespace).reverse.dropWhile
      Char.isWhitespace).reverse)

/-- `[key.strip() for key in s.split(',')]`. -/
def parseTagsCfg (s : String) : List String :=
  (splitCommaChars s.data).map (fun cs => pyStrip (String.mk cs))

/-- The `server_tags` list of the dispatch block: parsed from the
`msg.server_tags` option when present, empty otherwise. -/
def server_tags_of (cfg : Config) : List String :=
  match cfg.server_tags with
  | some s => parseTagsCfg s
  | none => []

/-- The network-dispatch block of `Msg.save`, parametrised by the re-save
function it may invoke.  It walks the message tags in order; on the first tag
in the configured server list it appends the origin line to the body, re-saves
the message and records `idx -> idx` in that network transit table; otherwise,
on the first tag in the configured network list it records `idx -> tag` in
that network outbound queue table; one action at most is taken. -/
def dispatchWith (cfg : Config)
    (saveF : DB → Msg → Option (Except (SaveErr × DB) (DB × Msg)))
    (db : DB) (m : Msg) : Option (Except (SaveErr × DB) (DB × Msg)) :=
  match cfg.network_tags with
  | none => some (Except.ok (db, m))
  | some nstr =>
    let networks := parseTagsCfg nstr
    if networks.length = 0 then some (Except.ok (db, m))
    else
      let servers := server_tags_of cfg
      match m.tags.find? (fun t => servers.contains t || networks.contains t) with
      | none => some (Except.ok (db, m))
      | some t =>
        if servers.contains t then
          let m2 := { m with body := m.body ++ format_origin_line cfg }
          match saveF db m2 with
          | none => none
          | some (Except.error e) => some (Except.error e)
          | some (Except.ok p) =>
            some (Except.ok
              ({ p.1 with
                  transdb := setTable p.1.transdb t (p.2.idx.getD 0) (p.2.idx.getD 0) },
               p.2))
        else
          some (Except.ok
            ({ db with queuedb := setTable db.queuedb t (m.idx.getD 0) t }, m))

/-- `Msg.save(noqueue, ctime)`: persist the record, reconcile the tag table,
check the self-reference assertion, update the parent thread link (re-saving
the parent, or stripping a self-parent), then run network dispatch when the
save was new and not suppressed.  `fuel` bounds the re-save recursion depth;
`none` is fuel exhaustion, `Except.error` a raised exception together with the
database state at the raise. -/
def save (cfg : Config) :
    Nat → DB → Msg → Bool → Option Nat → Nat →
      Option (Except (SaveErr × DB) (DB × Msg))
  | 0, _, _, _, _, _ => none
  | fuel+1, db, m, noqueue, ctime, now =>
    let pr := persistStep db m ctime now
    let m1 := pr.2.1
    let new := pr.2.2
    let i := m1.idx.getD 0
    let db2 := { pr.1 with tagdb := reconcileTags pr.1.tagdb m1.tags i }
    if assertViolated m1 then some (Except.error (SaveErr.assertFail, db2))
    else
      match m1.parent with
      | none =>
        if noqueue || !new then some (Except.ok (db2, m1))
        else dispatchWith cfg (fun d mm => save cfg fuel d mm false none now) db2 m1
      | some p =>
        match getAssoc db2.msgdb p with
        | none => some (Except.error (SaveErr.keyError p, db2))
        | some pm =>
          if m1.idx ≠ pm.idx then
            match save cfg fuel db2 { pm with children := addId pm.children i }
                false none now with
            | none => none
            | some (Except.error e) => some (Except.error e)
            | some (Except.ok q) =>
              if noqueue || !new then some (Except.ok (q.1, m1))
              else dispatchWith cfg (fun d mm => save cfg fuel d mm false none now) q.1 m1
          else
            let m2 := { m1 with parent := none }
            let db3 := { db2 with msgdb := setAssoc db2.msgdb i m2 }
            if noqueue || !new then some (Except.ok (db3, m2))
            else dispatchWith cfg (fun d mm => save cfg fuel d mm false none now) db3 m2

/-- The keys of the message table. -/
def msgKeys (db : DB) : List Nat := keysOf db.msgdb

/-- The member set of one tag-table entry, empty when the tag is unknown. -/
def tagMembers (db : DB) (t : String) : List Nat :=
  (getAssoc db.tagdb t).getD []

/-- Well-formed store: every message-table record carries the index it is
keyed by, and has been stamped with a save time. -/
def WF (db : DB) : Prop :=
  ∀ p ∈ db.msgdb, p.2.idx = some p.1 ∧ p.2.stime.isSome = true

instance (db : DB) : Decidable (WF db) := by
  unfold WF; infer_instance

section AssocLemmas

variable {κ α : Type} [DecidableEq κ]

theorem getAssoc_nil (k : κ) : getAssoc ([] : List (κ × α)) k = none := rfl

theorem getAssoc_cons_pos (p : κ × α) (l : List (κ × α)) (k : κ) (h : p.1 = k) :
    getAssoc (p :: l) k = some p.2 := by
  unfold getAssoc
  rw [@List.find?_cons_of_pos _ (fun q => decide (q.1 = k)) p l (by exact decide_eq_true h)]
  rfl

theorem getAssoc_cons_neg (p : κ × α) (l : List (κ × α)) (k : κ) (h : ¬ p.1 = k) :
    getAssoc (p :: l) k = getAssoc l k := by
  unfold getAssoc
  rw [@List.find?_cons_of_neg _ (fun q => decide (q.1 = k)) p l
    (by exact fun hc => h (of_decide_eq_true hc))]

theorem getAssoc_map_of_fst (l : List (κ × α)) (f : κ × α → κ × α)
    (hf : ∀ p, (f p).1 = p.1) (k : κ) :
    getAssoc (l.map f) k =
      (l.find? (fun p => decide (p.1 = k))).map (fun p => (f p).2) := by
  induction l with
  | nil => rfl
  | cons p l ih =>
    rw [List.map_cons]
    by_cases h : p.1 = k
    · rw [getAssoc_cons_pos _ _ _ (by rw [hf p]; exact h)]
      rw [@List.find?_cons_of_pos _ (fun q => decide (q.1 = k)) p l (by exact decide_eq_true h)]
      rfl
    · rw [getAssoc_cons_neg _ _ _ (by rw [hf p]; exact h)]
      rw [@List.find?_cons_of_neg _ (fun q => decide (q.1 = k)) p l
        (by exact fun hc => h (of_decide_eq_true hc))]
      exact ih

theorem find?_eq_of_getAssoc (l : List (κ × α)) (k : κ) (v : α)
    (h : getAssoc l k = some v) :
    l.find? (fun p => decide (p.1 = k)) = some (k, v) := by
  unfold getAssoc at h
  rcases hf : l.find? (fun p => decide (p.1 = k)) with _ | p
  · rw [hf] at h
    rw [Option.map_none'] at h
    cases h
  · rw [hf] at h
    simp only [Option.map_some'] at h
    have hp := List.find?_some hf
    have hk : p.1 = k := of_decide_eq_true hp
    cases h
    rw [hf, ← hk]

theorem getAssoc_eq_none_iff_find? (l : List (κ × α)) (k : κ) :
    getAssoc l k = none ↔ l.find? (fun p => decide (p.1 = k)) = none := by
  unfold getAssoc
  rcases hf : l.find? (fun p => decide (p.1 = k)) with _ | p
  · rw [hf, Option.map_none']
    exact ⟨fun _ => rfl, fun _ => rfl⟩
  · rw [hf]
    simp

theorem getAssoc_append_left (l1 l2 : List (κ × α)) (k : κ) (v : α)
    (h : getAssoc l1 k = some v) : getAssoc (l1 ++ l2) k = some v := by
  induction l1 with
  | nil => rw [getAssoc_nil] at h; cases h
  | cons p l ih =>
    by_cases hp : p.1 = k
    · rw [getAssoc_cons_pos _ _ _ hp] at h
      rw [List.cons_append, getAssoc_cons_pos _ _ _ hp]
      exact h
    · rw [getAssoc_cons_neg _ _ _ hp] at h
      rw [List.cons_append, getAssoc_cons_neg _ _ _ hp]
      exact ih h

theorem getAssoc_append_right (l1 l2 : List (κ × α)) (k : κ)
    (h : getAssoc l1 k = none) : getAssoc (l1 ++ l2) k = getAssoc l2 k := by
  induction l1 with
  | nil => rfl
  | cons p l ih =>
    by_cases hp : p.1 = k
    · rw [getAssoc_cons_pos _ _ _ hp] at h; cases h
    · rw [getAssoc_cons_neg _ _ _ hp] at h
      rw [List.cons_append, getAssoc_cons_neg _ _ _ hp]
      exact ih h

theorem any_key_iff_getAssoc (l : List (κ × α)) (k : κ) :
    l.any (fun p => decide (p.1 = k)) = true ↔ (getAssoc l k).isSome = true := by
  constructor
  · intro hany
    obtain ⟨p, hp, hpk⟩ := List.any_eq_true.mp hany
    rcases hf : l.find? (fun q => decide (q.1 = k)) with _ | q
    · rw [List.find?_eq_none] at hf
      exact absurd hpk (hf p hp)
    · unfold getAssoc
      rw [hf]
      rfl
  · intro hsome
    rcases ho : getAssoc l k with _ | v
    · rw [ho] at hsome; cases hsome
    · have hmem := List.mem_of_find?_eq_some (find?_eq_of_getAssoc l k v ho)
      exact List.any_eq_true.mpr ⟨(k, v), hmem, by simp⟩

theorem getAssoc_setAssoc_self (l : List (κ × α)) (k : κ) (v : α) :
    getAssoc (setAssoc l k v) k = some v := by
  unfold setAssoc
  split
  · next hany =>
    rw [getAssoc_map_of_fst _ _ (fun p => by by_cases h : p.1 = k <;> simp [h])]
    have hsome := (any_key_iff_getAssoc l k).mp hany
    rcases ho : getAssoc l k with _ | ms
    · rw [ho] at hsome; cases hsome
    · rw [find?_eq_of_getAssoc l k ms ho]
      simp
  · next hany =>
    have hnone : getAssoc l k = none := by
      rcases ho : getAssoc l k with _ | ms
      · rfl
      · exact absurd ((any_key_iff_getAssoc l k).mpr (by rw [ho]; rfl)) (by simp_all)
    rw [getAssoc_append_right _ _ _ hnone]
    exact getAssoc_cons_pos (k, v) [] k rfl

theorem getAssoc_setAssoc_ne (l : List (κ × α)) (k k' : κ) (v : α)
    (h : k' ≠ k) : getAssoc (setAssoc l k v) k' = getAssoc l k' := by
  unfold setAssoc
  split
  · rw [getAssoc_map_of_fst _ _ (fun p => by by_cases hh : p.1 = k <;> simp [hh])]
    rcases hf : l.find? (fun q => decide (q.1 = k')) with _ | q
    · rw [hf, (getAssoc_eq_none_iff_find? l k').mpr hf]
      rfl
    · have hq := List.find?_some hf
      have hk : q.1 = k' := of_decide_eq_true hq
      have hne : ¬ q.1 = k := by rw [hk]; exact h
      unfold getAssoc
      rw [hf]
      simp [hne]
  · rcases ho : getAssoc l k' with _ | ms
    · rw [getAssoc_append_right _ _ _ ho]
      rw [getAssoc_cons_neg _ _ _ (fun hh => h hh.symm)]
      rfl
    · exact getAssoc_append_left _ _ _ _ ho

theorem mem_keysOf_iff (l : List (κ × α)) (k : κ) :
    k ∈ keysOf l ↔ ∃ v, (k, v) ∈ l := by
  unfold keysOf
  rw [List.mem_map]
  constructor
  · rintro ⟨p, hp, rfl⟩
    exact ⟨p.2, hp⟩
  · rintro ⟨v, hv⟩
    exact ⟨(k, v), hv, rfl⟩

theorem mem_keysOf_setAssoc (l : List (κ × α)) (k k' : κ) (v : α) :
    k' ∈ keysOf (setAssoc l k v) ↔ k' = k ∨ k' ∈ keysOf l := by
  unfold setAssoc
  split
  · next hany =>
    have hkeys : keysOf (l.map fun p => if p.1 = k then (k, v) else p) = keysOf l := by
      unfold keysOf
      rw [List.map_map]
      apply List.map_congr_left
      intro p _
      by_cases h : p.1 = k <;> simp [h]
    rw [hkeys]
    obtain ⟨p, hp, hpk⟩ := List.any_eq_true.mp hany
    have hkmem : k ∈ keysOf l := by
      rw [mem_keysOf_iff]
      have hpk2 : p.1 = k := of_decide_eq_true hpk
      refine ⟨p.2, ?_⟩
      rw [← hpk2]
      exact hp
    constructor
    · exact Or.inr
    · rintro (rfl | hm)
      · exact hkmem
      · exact hm
  · unfold keysOf
    rw [List.map_append, List.mem_append]
    simp only [List.map_cons, List.map_nil, List.mem_singleton]
    tauto

theorem getAssoc_isSome_iff (l : List (κ × α)) (k : κ) :
    (getAssoc l k).isSome = true ↔ k ∈ keysOf l := by
  induction l with
  | nil => simp [getAssoc, keysOf]
  | cons p l ih =>
    by_cases h : p.1 = k
    · rw [getAssoc_cons_pos _ _ _ h]
      simp [keysOf, h]
    · rw [getAssoc_cons_neg _ _ _ h]
      unfold keysOf at *
      rw [List.map_cons, List.mem_cons, ih]
      constructor
      · exact Or.inr
      · rintro (rfl | hm)
        · exact absurd rfl h
        · exact hm

theorem getAssoc_mem (l : List (κ × α)) (k : κ) (v : α)
    (h : getAssoc l k = some v) : (k, v) ∈ l :=
  List.mem_of_find?_eq_some (find?_eq_of_getAssoc l k v h)

theorem forall_mem_setAssoc {q : κ × α → Prop} (l : List (κ × α)) (k : κ) (v : α)
    (hl : ∀ p ∈ l, q p) (hv : q (k, v)) : ∀ p ∈ setAssoc l k v, q p := by
  unfold setAssoc
  split
  · intro p hp
    rw [List.mem_map] at hp
    obtain ⟨r, hr, hrp⟩ := hp
    by_cases h : r.1 = k
    · rw [if_pos h] at hrp; rw [← hrp]; exact hv
    · rw [if_neg h] at hrp; rw [← hrp]; exact hl r hr
  · intro p hp
    rw [List.mem_append] at hp
    rcases hp with hp | hp
    · exact hl p hp
    · simp only [List.mem_singleton] at hp
      rw [hp]; exact hv

theorem getAssoc_map_const (l : List κ) (c : α) (k : κ) :
    getAssoc (l.map (fun t => (t, c))) k =
      if k ∈ l then some c else none := by
  induction l with
  | nil => rfl
  | cons t l ih =>
    rw [List.map_cons]
    by_cases h : t = k
    · rw [getAssoc_cons_pos _ _ _ h]
      simp [h]
    · rw [getAssoc_cons_neg _ _ _ h, ih]
      have hk : ¬ k = t := fun hh => h hh.symm
      simp [hk]

end AssocLemmas

section ReconcileLemmas

/-- The per-entry update function of the tag walk keeps every entry under its
own key. -/
theorem reconcileFun_fst (tags : List String) (i : Nat) (p : String × List Nat) :
    (if tags.contains p.1 && !(p.2.contains i) then (p.1, p.2 ++ [i])
      else if !(tags.contains p.1) && p.2.contains i then
        (p.1, p.2.filter (fun j => decide (j ≠ i)))
      else p).1 = p.1 := by
  split
  · rfl
  · split
    · rfl
    · rfl

theorem reconcile_getAssoc_of_some (tagdb : List (String × List Nat))
    (tags : List String) (i : Nat) (t : String) (ms : List Nat)
    (ho : getAssoc tagdb t = some ms) :
    getAssoc (reconcileTags tagdb tags i) t = some
      (if tags.contains t && !(ms.contains i) then ms ++ [i]
       else if !(tags.contains t) && ms.contains i then
         ms.filter (fun j => decide (j ≠ i))
       else ms) := by
  unfold reconcileTags
  apply getAssoc_append_left
  rw [getAssoc_map_of_fst _ _ (reconcileFun_fst tags i)]
  rw [find?_eq_of_getAssoc _ _ _ ho]
  rw [Option.map_some']
  cases h1 : (tags.contains t && !ms.contains i) <;>
    cases h2 : (!tags.contains t && ms.contains i) <;>
      simp [h1, h2]

theorem reconcile_getAssoc_of_none (tagdb : List (String × List Nat))
    (tags : List String) (i : Nat) (t : String)
    (ho : getAssoc tagdb t = none) :
    getAssoc (reconcileTags tagdb tags i) t =
      if t ∈ tags then some [i] else none := by
  unfold reconcileTags
  rw [getAssoc_append_right]
  · rw [getAssoc_map_const]
    have hany : tagdb.any (fun p => decide (p.1 = t)) = false := by
      rcases hb : tagdb.any (fun p => decide (p.1 = t))
      · rfl
      · have := (any_key_iff_getAssoc tagdb t).mp hb
        rw [ho] at this
        cases this
    by_cases hm : t ∈ tags
    · have hf : t ∈ tags.filter (fun s => !(tagdb.any (fun p => decide (p.1 = s)))) := by
        rw [List.mem_filter]
        exact ⟨hm, by rw [hany]; rfl⟩
      simp [hf, hm]
    · have hf : ¬ t ∈ tags.filter (fun s => !(tagdb.any (fun p => decide (p.1 = s)))) := by
        rw [List.mem_filter]
        exact fun hc => hm hc.1
      simp [hf, hm]
  · rw [getAssoc_map_of_fst _ _ (reconcileFun_fst tags i)]
    rw [(getAssoc_eq_none_iff_find? tagdb t).mp ho]
    rfl

/-- After the tag walk for index `i`, the index `i` belongs to the member set
of a tag exactly when the saved message carries that tag. -/
theorem reconcile_mem_self (tagdb : List (String × List Nat))
    (tags : List String) (i : Nat) (t : String) :
    i ∈ (getAssoc (reconcileTags tagdb tags i) t).getD [] ↔ t ∈ tags := by
  rcases ho : getAssoc tagdb t with _ | ms
  · rw [reconcile_getAssoc_of_none _ _ _ _ ho]
    by_cases hm : t ∈ tags <;> simp [hm]
  · rw [reconcile_getAssoc_of_some _ _ _ _ _ ho]
    cases hc : tags.contains t <;> cases hi : ms.contains i <;>
      simp only [Option.getD_some, Bool.not_true, Bool.not_false,
        Bool.and_true, Bool.and_false, Bool.true_and, Bool.false_and,
        Bool.and_self, if_true, if_false]
    · have hm : ¬ t ∈ tags := by simpa using hc
      have hms : ¬ i ∈ ms := by simpa using hi
      simp [hm, hms]
    · have hm : ¬ t ∈ tags := by simpa using hc
      simp [hm, List.mem_filter]
    · have hm : t ∈ tags := by simpa using hc
      simp [hm]
    · have hm : t ∈ tags := by simpa using hc
      have hms : i ∈ ms := by simpa using hi
      simp [hm, hms]

/-- The tag walk for index `i` does not change membership of any other index. -/
theorem reconcile_mem_other (tagdb : List (String × List Nat))
    (tags : List String) (i x : Nat) (t : String) (hx : x ≠ i) :
    x ∈ (getAssoc (reconcileTags tagdb tags i) t).getD [] ↔
      x ∈ (getAssoc tagdb t).getD [] := by
  rcases ho : getAssoc tagdb t with _ | ms
  · rw [reconcile_getAssoc_of_none _ _ _ _ ho]
    by_cases hm : t ∈ tags <;> simp [hm, hx]
  · rw [reconcile_getAssoc_of_some _ _ _ _ _ ho]
    cases hc : tags.contains t <;> cases hi : ms.contains i <;>
      simp [List.mem_filter, hx]

/-- The tag walk adds the carried tags to the key set and deletes no key. -/
theorem reconcile_isSome (tagdb : List (String × List Nat))
    (tags : List String) (i : Nat) (t : String) :
    (getAssoc (reconcileTags tagdb tags i) t).isSome =
      ((getAssoc tagdb t).isSome || decide (t ∈ tags)) := by
  rcases ho : getAssoc tagdb t with _ | ms
  · rw [reconcile_getAssoc_of_none _ _ _ _ ho]
    by_cases hm : t ∈ tags <;> simp [hm]
  · rw [reconcile_getAssoc_of_some _ _ _ _ _ ho]
    simp

end ReconcileLemmas

section IdxLemmas

theorem foldl_max_bounds (l : List Nat) (a : Nat) :
    a ≤ l.foldl Nat.max a ∧ ∀ x ∈ l, x ≤ l.foldl Nat.max a := by
  induction l generalizing a with
  | nil => exact ⟨Nat.le_refl a, by simp⟩
  | cons b l ih =>
    obtain ⟨h1, h2⟩ := ih (Nat.max a b)
    refine ⟨Nat.le_trans (Nat.le_max_left a b) ?_, ?_⟩
    · exact h1
    · intro x hx
      rw [List.mem_cons] at hx
      rcases hx with rfl | hx
      · exact Nat.le_trans (Nat.le_max_right a x) h1
      · exact h2 x hx

/-- Every key already in the message table is strictly below the index the
next new message will be assigned. -/
theorem lt_nextIdx_of_mem (db : DB) (k : Nat) (hk : k ∈ msgKeys db) :
    k < nextIdx db := by
  unfold msgKeys keysOf at hk
  unfold nextIdx
  rcases hdb : db.msgdb with _ | ⟨p, l⟩
  · rw [hdb] at hk
    cases hk
  · rw [hdb] at hk
    have hb := (foldl_max_bounds ((p :: l).map Prod.fst) 0).2 k hk
    show k < ((p :: l).map Prod.fst).foldl Nat.max 0 + 1
    omega

end IdxLemmas

section DispatchLemmas

/-- Every successful run of the dispatch block is one of three shapes: no
action, one write to an outbound queue table, or a body-extending re-save
followed by one write to a transit table. -/
theorem dispatchWith_ok (cfg : Config)
    (saveF : DB → Msg → Option (Except (SaveErr × DB) (DB × Msg)))
    (dbx : DB) (mx : Msg) (db' : DB) (m' : Msg)
    (h : dispatchWith cfg saveF dbx mx = some (Except.ok (db', m'))) :
    (db' = dbx ∧ m' = mx)
    ∨ (∃ t, t ∈ mx.tags ∧ m' = mx ∧
        db' = { dbx with queuedb := setTable dbx.queuedb t (mx.idx.getD 0) t })
    ∨ (∃ t d2, t ∈ mx.tags ∧
        saveF dbx { mx with body := mx.body ++ format_origin_line cfg } =
          some (Except.ok (d2, m')) ∧
        db' = { d2 with
          transdb := setTable d2.transdb t (m'.idx.getD 0) (m'.idx.getD 0) }) := by
  unfold dispatchWith at h
  rcases hnt : cfg.network_tags with _ | nstr
  · rw [hnt] at h
    simp only [Option.some.injEq, Except.ok.injEq, Prod.mk.injEq] at h
    exact Or.inl ⟨h.1.symm, h.2.symm⟩
  · rw [hnt] at h
    simp only at h
    by_cases hlen : (parseTagsCfg nstr).length = 0
    · rw [if_pos hlen] at h
      simp only [Option.some.injEq, Except.ok.injEq, Prod.mk.injEq] at h
      exact Or.inl ⟨h.1.symm, h.2.symm⟩
    · rw [if_neg hlen] at h
      rcases hfind : mx.tags.find? (fun t =>
          (server_tags_of cfg).contains t || (parseTagsCfg nstr).contains t)
        with _ | t
      · rw [hfind] at h
        simp only [Option.some.injEq, Except.ok.injEq, Prod.mk.injEq] at h
        exact Or.inl ⟨h.1.symm, h.2.symm⟩
      · simp only [hfind] at h
        have hmem : t ∈ mx.tags := List.mem_of_find?_eq_some hfind
        by_cases hsrv : (server_tags_of cfg).contains t = true
        · rw [if_pos hsrv] at h
          rcases hs : saveF dbx { mx with body := mx.body ++ format_origin_line cfg }
            with _ | er
          · rw [hs] at h
            cases h
          · rcases er with e | q
            · rw [hs] at h
              simp at h
            · obtain ⟨d2, mm⟩ := q
              rw [hs] at h
              simp only [Option.some.injEq, Except.ok.injEq, Prod.mk.injEq] at h
              obtain ⟨h1, h2⟩ := h
              subst h2
              subst h1
              exact Or.inr (Or.inr ⟨t, d2, hmem, rfl, rfl⟩)
        · rw [if_neg hsrv] at h
          simp only [Option.some.injEq, Except.ok.injEq, Prod.mk.injEq] at h
          exact Or.inr (Or.inl ⟨t, hmem, h.2.symm, h.1.symm⟩)

end DispatchLemmas

section FrameLemmas

/-- Facts preserved by every completed save, whatever the fuel: the message
keys and tag keys only grow, the tag set of the saved message is untouched,
and a save of an already-persisted message does not change its index, its
timestamps or its body. -/
def SaveFrame (db : DB) (m : Msg) (db' : DB) (m' : Msg) : Prop :=
  (∀ k, k ∈ msgKeys db → k ∈ msgKeys db')
  ∧ (∀ t, (getAssoc db.tagdb t).isSome = true →
      (getAssoc db'.tagdb t).isSome = true)
  ∧ m'.tags = m.tags
  ∧ (isNewMsg m = false →
      m'.idx = m.idx ∧ m'.stime = m.stime ∧ m'.ctime = m.ctime ∧
      m'.body = m.body)

theorem isSome_reconcile_of_isSome {tagdb : List (String × List Nat)}
    {tags : List String} {i : Nat} {t : String}
    (h : (getAssoc tagdb t).isSome = true) :
    (getAssoc (reconcileTags tagdb tags i) t).isSome = true := by
  rw [reconcile_isSome, h, Bool.true_or]

theorem mem_keysOf_setAssoc_of_mem {l : List (Nat × Msg)} {i k : Nat} {v : Msg}
    (h : k ∈ keysOf l) : k ∈ keysOf (setAssoc l i v) :=
  (mem_keysOf_setAssoc l i k v).mpr (Or.inr h)

theorem dispatch_frame (cfg : Config) (now : Nat) (fuel : Nat)
    (ih : ∀ db m nq ct db' m',
      save cfg fuel db m nq ct now = some (Except.ok (db', m')) →
      SaveFrame db m db' m')
    (dbx : DB) (mx : Msg) (db' : DB) (m' : Msg)
    (h : dispatchWith cfg (fun d mm => save cfg fuel d mm false none now) dbx mx
      = some (Except.ok (db', m'))) :
    (∀ k, k ∈ msgKeys dbx → k ∈ msgKeys db')
    ∧ (∀ t, (getAssoc dbx.tagdb t).isSome = true →
        (getAssoc db'.tagdb t).isSome = true)
    ∧ m'.tags = mx.tags := by
  rcases dispatchWith_ok _ _ _ _ _ _ h with ⟨rfl, rfl⟩ | ⟨t, _, rfl, rfl⟩ |
    ⟨t, d2, _, hs, rfl⟩
  · exact ⟨fun k hk => hk, fun t ht => ht, rfl⟩
  · exact ⟨fun k hk => hk, fun s hs => hs, rfl⟩
  · have hv := ih dbx { mx with body := mx.body ++ format_origin_line cfg }
      false none d2 m' hs
    exact ⟨hv.1, hv.2.1, hv.2.2.1⟩

theorem save_frame (cfg : Config) (now : Nat) :
    ∀ fuel db m nq ct db' m',
      save cfg fuel db m nq ct now = some (Except.ok (db', m')) →
      SaveFrame db m db' m' := by
  intro fuel
  induction fuel with
  | zero =>
    intro db m nq ct db' m' hok
    rw [save] at hok
    cases hok
  | succ fuel ih =>
    intro db m nq ct db' m' hok
    rw [save] at hok
    cases hnew : isNewMsg m
    · -- further saves of an already persisted record
      simp only [persistStep, hnew, Bool.false_eq_true, if_false,
        Bool.not_false, Bool.or_true, if_true] at hok
      split at hok
      · simp at hok
      · split at hok
        · -- no parent
          simp only [Option.some.injEq, Except.ok.injEq, Prod.mk.injEq] at hok
          obtain ⟨h1, h2⟩ := hok
          subst h1
          subst h2
          exact ⟨fun k hk => mem_keysOf_setAssoc_of_mem hk,
            fun t ht => isSome_reconcile_of_isSome ht, rfl,
            fun _ => ⟨rfl, rfl, rfl, rfl⟩⟩
        · next p hp =>
          split at hok
          · simp at hok
          · next pm hpm =>
            split at hok
            · -- a distinct parent record: recursive save
              split at hok
              · cases hok
              · simp at hok
              · next q hrec =>
                simp only [Option.some.injEq, Except.ok.injEq, Prod.mk.injEq] at hok
                obtain ⟨h1, h2⟩ := hok
                subst h1
                subst h2
                have hv := ih _ _ false none q.1 q.2 hrec
                exact ⟨fun k hk => hv.1 k (mem_keysOf_setAssoc_of_mem hk),
                  fun t ht => hv.2.1 t (isSome_reconcile_of_isSome ht), rfl,
                  fun _ => ⟨rfl, rfl, rfl, rfl⟩⟩
            · -- a self-parent record: strip and rewrite
              simp only [Option.some.injEq, Except.ok.injEq, Prod.mk.injEq] at hok
              obtain ⟨h1, h2⟩ := hok
              subst h1
              subst h2
              exact ⟨fun k hk =>
                  mem_keysOf_setAssoc_of_mem (mem_keysOf_setAssoc_of_mem hk),
                fun t ht => isSome_reconcile_of_isSome ht, rfl,
                fun _ => ⟨rfl, rfl, rfl, rfl⟩⟩
    · -- first save of a new record
      simp only [persistStep, hnew, if_true, Bool.not_true, Bool.or_false,
        Option.getD_some] at hok
      have hvac : isNewMsg m = false →
          m'.idx = m.idx ∧ m'.stime = m.stime ∧ m'.ctime = m.ctime ∧
          m'.body = m.body :=
        fun hf => Bool.noConfusion (hf.symm.trans hnew)
      split at hok
      · simp at hok
      · split at hok
        · -- no parent
          split at hok
          · -- dispatch suppressed
            simp only [Option.some.injEq, Except.ok.injEq, Prod.mk.injEq] at hok
            obtain ⟨h1, h2⟩ := hok
            subst h1
            subst h2
            exact ⟨fun k hk => mem_keysOf_setAssoc_of_mem hk,
              fun t ht => isSome_reconcile_of_isSome ht, rfl, hvac⟩
          · -- dispatch runs
            have hd := dispatch_frame cfg now fuel
              (fun d mm nq2 ct2 d2 mm2 hh => ih d mm nq2 ct2 d2 mm2 hh)
              _ _ _ _ hok
            exact ⟨fun k hk => hd.1 k (mem_keysOf_setAssoc_of_mem hk),
              fun t ht => hd.2.1 t (isSome_reconcile_of_isSome ht),
              hd.2.2, hvac⟩
        · next p hp =>
          split at hok
          · simp at hok
          · next pm hpm =>
            split at hok
            · -- distinct parent record: recursive save, then maybe dispatch
              split at hok
              · cases hok
              · simp at hok
              · next q hrec =>
                have hv := ih _ _ false none q.1 q.2 hrec
                split at hok
                · simp only [Option.some.injEq, Except.ok.injEq,
                    Prod.mk.injEq] at hok
                  obtain ⟨h1, h2⟩ := hok
                  subst h1
                  subst h2
                  exact ⟨fun k hk => hv.1 k (mem_keysOf_setAssoc_of_mem hk),
                    fun t ht => hv.2.1 t (isSome_reconcile_of_isSome ht), rfl,
                    hvac⟩
                · have hd := dispatch_frame cfg now fuel
                    (fun d mm nq2 ct2 d2 mm2 hh => ih d mm nq2 ct2 d2 mm2 hh)
                    _ _ _ _ hok
                  exact ⟨fun k hk =>
                      hd.1 k (hv.1 k (mem_keysOf_setAssoc_of_mem hk)),
                    fun t ht =>
                      hd.2.1 t (hv.2.1 t (isSome_reconcile_of_isSome ht)),
                    hd.2.2, hvac⟩
            · -- self-parent record: strip, rewrite, then maybe dispatch
              split at hok
              · simp only [Option.some.injEq, Except.ok.injEq,
                  Prod.mk.injEq] at hok
                obtain ⟨h1, h2⟩ := hok
                subst h1
                subst h2
                exact ⟨fun k hk =>
                    mem_keysOf_setAssoc_of_mem (mem_keysOf_setAssoc_of_mem hk),
                  fun t ht => isSome_reconcile_of_isSome ht, rfl, hvac⟩
              · have hd := dispatch_frame cfg now fuel
                  (fun d mm nq2 ct2 d2 mm2 hh => ih d mm nq2 ct2 d2 mm2 hh)
                  _ _ _ _ hok
                exact ⟨fun k hk => hd.1 k
                    (mem_keysOf_setAssoc_of_mem (mem_keysOf_setAssoc_of_mem hk)),
                  fun t ht => hd.2.1 t (isSome_reconcile_of_isSome ht),
                  hd.2.2, hvac⟩

end FrameLemmas

section WFLemmas

theorem not_new_parts {m : Msg} (h : isNewMsg m = false) :
    m.idx = some (m.idx.getD 0) ∧ m.stime.isSome = true := by
  unfold isNewMsg at h
  rcases hidx : m.idx with _ | j
  · rw [hidx] at h
    simp at h
  · rcases hst : m.stime with _ | s
    · rw [hidx, hst] at h
      simp at h
    · exact ⟨rfl, rfl⟩

theorem isNew_false_of {m : Msg} {j : Nat} (h1 : m.idx = some j)
    (h2 : m.stime.isSome = true) : isNewMsg m = false := by
  unfold isNewMsg
  rw [h1]
  rcases hst : m.stime with _ | s
  · rw [hst] at h2
    cases h2
  · rfl

theorem WF_setAssoc {db : DB} {i : Nat} {v : Msg} (hWF : WF db)
    (h1 : v.idx = some i) (h2 : v.stime.isSome = true) :
    ∀ p ∈ setAssoc db.msgdb i v, p.2.idx = some p.1 ∧ p.2.stime.isSome = true :=
  forall_mem_setAssoc db.msgdb i v hWF ⟨h1, h2⟩

theorem dispatch_wf (cfg : Config) (now : Nat) (fuel : Nat)
    (ih : ∀ db m nq ct db' m',
      WF db → save cfg fuel db m nq ct now = some (Except.ok (db', m')) →
      WF db' ∧ (isNewMsg m = false →
        db'.transdb = db.transdb ∧ db'.queuedb = db.queuedb))
    (dbx : DB) (mx : Msg) (db' : DB) (m' : Msg) (hWFx : WF dbx)
    (h : dispatchWith cfg (fun d mm => save cfg fuel d mm false none now) dbx mx
      = some (Except.ok (db', m'))) : WF db' := by
  rcases dispatchWith_ok _ _ _ _ _ _ h with ⟨rfl, rfl⟩ | ⟨t, _, rfl, rfl⟩ |
    ⟨t, d2, _, hs, rfl⟩
  · exact hWFx
  · exact hWFx
  · exact (ih dbx { mx with body := mx.body ++ format_origin_line cfg }
      false none d2 m' hWFx hs).1

/-- A completed save keeps the store well-formed, and a save of an
already-persisted record never touches the transit and queue tables. -/
theorem save_wf (cfg : Config) (now : Nat) :
    ∀ fuel db m nq ct db' m',
      WF db →
      save cfg fuel db m nq ct now = some (Except.ok (db', m')) →
      WF db' ∧ (isNewMsg m = false →
        db'.transdb = db.transdb ∧ db'.queuedb = db.queuedb) := by
  intro fuel
  induction fuel with
  | zero =>
    intro db m nq ct db' m' _ hok
    rw [save] at hok
    cases hok
  | succ fuel ih =>
    intro db m nq ct db' m' hWF hok
    rw [save] at hok
    cases hnew : isNewMsg m
    · -- further saves of an already persisted record
      obtain ⟨hidx, hstime⟩ := not_new_parts hnew
      have hWF2 : ∀ p ∈ setAssoc db.msgdb (m.idx.getD 0) m,
          p.2.idx = some p.1 ∧ p.2.stime.isSome = true :=
        WF_setAssoc hWF hidx hstime
      have hWF2d : WF (DB.mk (setAssoc db.msgdb (m.idx.getD 0) m)
          (reconcileTags db.tagdb m.tags (m.idx.getD 0)) db.transdb db.queuedb) :=
        hWF2
      simp only [persistStep, hnew, Bool.false_eq_true, if_false,
        Bool.not_false, Bool.or_true, if_true] at hok
      split at hok
      · simp at hok
      · split at hok
        · -- no parent
          simp only [Option.some.injEq, Except.ok.injEq, Prod.mk.injEq] at hok
          obtain ⟨h1, h2⟩ := hok
          subst h1
          subst h2
          exact ⟨hWF2, fun _ => ⟨rfl, rfl⟩⟩
        · next p hp =>
          split at hok
          · simp at hok
          · next pm hpm =>
            have hpmWF := hWF2 (p, pm) (getAssoc_mem _ _ _ hpm)
            split at hok
            · -- distinct parent record: recursive save
              split at hok
              · cases hok
              · simp at hok
              · next q hrec =>
                simp only [Option.some.injEq, Except.ok.injEq,
                  Prod.mk.injEq] at hok
                obtain ⟨h1, h2⟩ := hok
                subst h1
                subst h2
                have hnew2 : isNewMsg
                    { pm with children := addId pm.children (m.idx.getD 0) } = false :=
                  isNew_false_of (show pm.idx = some p from hpmWF.1) hpmWF.2
                have hv := ih _ _ false none q.1 q.2 hWF2d hrec
                exact ⟨hv.1, fun _ => (hv.2 hnew2)⟩
            · -- self-parent record: strip and rewrite
              simp only [Option.some.injEq, Except.ok.injEq, Prod.mk.injEq] at hok
              obtain ⟨h1, h2⟩ := hok
              subst h1
              subst h2
              exact ⟨forall_mem_setAssoc _ _ _ hWF2 ⟨hidx, hstime⟩,
                fun _ => ⟨rfl, rfl⟩⟩
    · -- first save of a new record
      simp only [persistStep, hnew, if_true, Bool.not_true, Bool.or_false,
        Option.getD_some] at hok
      have hWF2d : WF (DB.mk (setAssoc db.msgdb (nextIdx db)
          { m with idx := some (nextIdx db), ctime := ct.getD m.ctime,
                   stime := some (ct.getD now) })
          (reconcileTags db.tagdb m.tags (nextIdx db)) db.transdb db.queuedb) :=
        WF_setAssoc hWF rfl rfl
      split at hok
      · simp at hok
      · split at hok
        · -- no parent
          split at hok
          · simp only [Option.some.injEq, Except.ok.injEq, Prod.mk.injEq] at hok
            obtain ⟨h1, h2⟩ := hok
            subst h1
            subst h2
            exact ⟨hWF2d, fun hf => Bool.noConfusion hf⟩
          · exact ⟨dispatch_wf cfg now fuel ih _ _ _ _ hWF2d hok,
              fun hf => Bool.noConfusion hf⟩
        · next p hp =>
          split at hok
          · simp at hok
          · next pm hpm =>
            split at hok
            · -- distinct parent record: recursive save, then maybe dispatch
              split at hok
              · cases hok
              · simp at hok
              · next q hrec =>
                have hv := ih _ _ false none q.1 q.2 hWF2d hrec
                split at hok
                · simp only [Option.some.injEq, Except.ok.injEq,
                    Prod.mk.injEq] at hok
                  obtain ⟨h1, h2⟩ := hok
                  subst h1
                  subst h2
                  exact ⟨hv.1, fun hf => Bool.noConfusion hf⟩
                · exact ⟨dispatch_wf cfg now fuel ih _ _ _ _ hv.1 hok,
                    fun hf => Bool.noConfusion hf⟩
            · -- self-parent record: strip, rewrite, then maybe dispatch
              have hWF3 : ∀ p2 ∈ setAssoc (setAssoc db.msgdb (nextIdx db)
                  { m with idx := some (nextIdx db), ctime := ct.getD m.ctime,
                           stime := some (ct.getD now) }) (nextIdx db)
                  { m with idx := some (nextIdx db), ctime := ct.getD m.ctime,
                           stime := some (ct.getD now), parent := none },
                  p2.2.idx = some p2.1 ∧ p2.2.stime.isSome = true :=
                forall_mem_setAssoc _ _ _ hWF2d ⟨rfl, rfl⟩
              have hWF3d : WF (DB.mk (setAssoc (setAssoc db.msgdb (nextIdx db)
                  { m with idx := some (nextIdx db), ctime := ct.getD m.ctime,
                           stime := some (ct.getD now) }) (nextIdx db)
                  { m with idx := some (nextIdx db), ctime := ct.getD m.ctime,
                           stime := some (ct.getD now), parent := none })
                  (reconcileTags db.tagdb m.tags (nextIdx db))
                  db.transdb db.queuedb) := hWF3
              split at hok
              · simp only [Option.some.injEq, Except.ok.injEq,
                  Prod.mk.injEq] at hok
                obtain ⟨h1, h2⟩ := hok
                subst h1
                subst h2
                exact ⟨hWF3d, fun hf => Bool.noConfusion hf⟩
              · exact ⟨dispatch_wf cfg now fuel ih _ _ _ _ hWF3d hok,
                  fun hf => Bool.noConfusion hf⟩

end WFLemmas

section TagInvLemmas

/-- Invariant carried through the cascaded re-saves triggered by saving a
message with index `i` and tag set `T`: membership of `i` in the tag table
matches `T` on every known tag, every tag of `T` is known, and the record
stored at `i` carries exactly the tags `T`. -/
def TagInv (i : Nat) (T : List String) (db : DB) : Prop :=
  (∀ t, (getAssoc db.tagdb t).isSome = true →
    (i ∈ (getAssoc db.tagdb t).getD [] ↔ t ∈ T))
  ∧ (∀ t ∈ T, (getAssoc db.tagdb t).isSome = true)
  ∧ (∃ rec, getAssoc db.msgdb i = some rec ∧ rec.tags = T)

theorem tagInv_reconcile (i j : Nat) (T tags : List String)
    (tagdb : List (String × List Nat))
    (hGood : ∀ t, (getAssoc tagdb t).isSome = true →
      (i ∈ (getAssoc tagdb t).getD [] ↔ t ∈ T))
    (hTCov : ∀ t ∈ T, (getAssoc tagdb t).isSome = true)
    (hcase : j = i → tags = T) :
    (∀ t, (getAssoc (reconcileTags tagdb tags j) t).isSome = true →
      (i ∈ (getAssoc (reconcileTags tagdb tags j) t).getD [] ↔ t ∈ T))
    ∧ (∀ t ∈ T, (getAssoc (reconcileTags tagdb tags j) t).isSome = true) := by
  by_cases hji : j = i
  · subst hji
    have hTT : tags = T := hcase rfl
    subst hTT
    exact ⟨fun t _ => reconcile_mem_self tagdb tags j t,
      fun t ht => isSome_reconcile_of_isSome (hTCov t ht)⟩
  · constructor
    · intro t _
      rw [reconcile_mem_other tagdb tags j i t (fun he => hji he.symm)]
      rcases ho : getAssoc tagdb t with _ | ms
      · simp only [Option.getD_none, List.not_mem_nil, false_iff]
        intro hT
        have hc := hTCov t hT
        rw [ho] at hc
        cases hc
      · have hg := hGood t (by rw [ho]; rfl)
        rw [ho] at hg
        exact hg
    · intro t ht
      exact isSome_reconcile_of_isSome (hTCov t ht)

/-- The invariant of `TagInv` survives any completed save of an
already-persisted record, including the whole cascade of parent re-saves. -/
theorem save_tag_inv (cfg : Config) (now : Nat) (i : Nat) (T : List String) :
    ∀ fuel db r nq ct db' r',
      WF db → isNewMsg r = false → (r.idx = some i → r.tags = T) →
      TagInv i T db →
      save cfg fuel db r nq ct now = some (Except.ok (db', r')) →
      TagInv i T db' := by
  intro fuel
  induction fuel with
  | zero =>
    intro db r nq ct db' r' _ _ _ _ hok
    rw [save] at hok
    cases hok
  | succ fuel ih =>
    intro db r nq ct db' r' hWF hnew hti hInv hok
    obtain ⟨hidx, hstime⟩ := not_new_parts hnew
    have hInv2 : TagInv i T (DB.mk (setAssoc db.msgdb (r.idx.getD 0) r)
        (reconcileTags db.tagdb r.tags (r.idx.getD 0)) db.transdb db.queuedb) := by
      obtain ⟨hGood, hTCov, rec0, hrec0, hrtags⟩ := hInv
      have hrt := tagInv_reconcile i (r.idx.getD 0) T r.tags db.tagdb hGood hTCov
        (fun hj => hti (by rw [hidx, hj]))
      refine ⟨hrt.1, hrt.2, ?_⟩
      by_cases hj : r.idx.getD 0 = i
      · refine ⟨r, ?_, hti (by rw [hidx, hj])⟩
        rw [hj]
        exact getAssoc_setAssoc_self _ _ _
      · refine ⟨rec0, ?_, hrtags⟩
        rw [getAssoc_setAssoc_ne _ _ _ _ (fun he => hj he.symm)]
        exact hrec0
    have hWF2 : ∀ p ∈ setAssoc db.msgdb (r.idx.getD 0) r,
        p.2.idx = some p.1 ∧ p.2.stime.isSome = true :=
      WF_setAssoc hWF hidx hstime
    have hWF2d : WF (DB.mk (setAssoc db.msgdb (r.idx.getD 0) r)
        (reconcileTags db.tagdb r.tags (r.idx.getD 0)) db.transdb db.queuedb) :=
      hWF2
    rw [save] at hok
    simp only [persistStep, hnew, Bool.false_eq_true, if_false,
      Bool.not_false, Bool.or_true, if_true] at hok
    split at hok
    · simp at hok
    · split at hok
      · -- no parent
        simp only [Option.some.injEq, Except.ok.injEq, Prod.mk.injEq] at hok
        obtain ⟨h1, h2⟩ := hok
        subst h1
        subst h2
        exact hInv2
      · next p hp =>
        split at hok
        · simp at hok
        · next pm hpm =>
          have hpmWF := hWF2 (p, pm) (getAssoc_mem _ _ _ hpm)
          split at hok
          · -- distinct parent record: recursive save
            split at hok
            · cases hok
            · simp at hok
            · next q hrecx =>
              have hti2 :
                  ({ pm with children := addId pm.children (r.idx.getD 0) } : Msg).idx
                      = some i →
                  ({ pm with children := addId pm.children (r.idx.getD 0) } : Msg).tags
                      = T := by
                intro hpidx
                have hpi : p = i :=
                  Option.some.inj ((hpmWF.1).symm.trans hpidx)
                obtain ⟨rec2, hrec2, htags2⟩ := hInv2.2.2
                have hpmrec : pm = rec2 := by
                  rw [hpi] at hpm
                  exact Option.some.inj (hpm.symm.trans hrec2)
                show pm.tags = T
                rw [hpmrec]
                exact htags2
              have hnew2 : isNewMsg
                  { pm with children := addId pm.children (r.idx.getD 0) } = false :=
                isNew_false_of (show pm.idx = some p from hpmWF.1) hpmWF.2
              have hInv3 := ih _ _ false none q.1 q.2 hWF2d hnew2 hti2 hInv2 hrecx
              simp only [Option.some.injEq, Except.ok.injEq, Prod.mk.injEq] at hok
              obtain ⟨h1, h2⟩ := hok
              subst h1
              subst h2
              exact hInv3
          · -- self-parent record: strip and rewrite
            simp only [Option.some.injEq, Except.ok.injEq, Prod.mk.injEq] at hok
            obtain ⟨h1, h2⟩ := hok
            subst h1
            subst h2
            obtain ⟨hG2, hC2, rec2, hrec2, htags2⟩ := hInv2
            refine ⟨hG2, hC2, ?_⟩
            by_cases hj : r.idx.getD 0 = i
            · refine ⟨{ r with parent := none }, ?_, ?_⟩
              · rw [hj]
                exact getAssoc_setAssoc_self _ _ _
              · show r.tags = T
                exact hti (by rw [hidx, hj])
            · refine ⟨rec2, ?_, htags2⟩
              rw [getAssoc_setAssoc_ne _ _ _ _ (fun he => hj he.symm)]
              exact hrec2

end TagInvLemmas

section ChildInvLemmas

/-- Invariant for the thread-link step: the record stored under the parent
key `p` lists `i` among its children. -/
def ChildInv (i p : Nat) (db : DB) : Prop :=
  ∃ rec, getAssoc db.msgdb p = some rec ∧ i ∈ rec.children

theorem mem_addId_of_mem {l : List Nat} {x y : Nat} (h : x ∈ l) :
    x ∈ addId l y := by
  unfold addId
  split
  · exact h
  · exact List.mem_append_left _ h

theorem mem_addId_self (l : List Nat) (x : Nat) : x ∈ addId l x := by
  unfold addId
  split
  · next h => simpa using h
  · exact List.mem_append_right _ (by simp)

/-- Once the record at key `p` lists `i` among its children — or the record
being saved is itself the one keyed `p` and lists `i` — every further
completed save of an already-persisted record keeps `i` among the children
of the record at `p`. -/
theorem save_child_inv (cfg : Config) (now : Nat) (i p : Nat) :
    ∀ fuel db r nq ct db' r',
      WF db → isNewMsg r = false →
      (r.idx = some p → i ∈ r.children) →
      (ChildInv i p db ∨ (r.idx = some p ∧ i ∈ r.children)) →
      save cfg fuel db r nq ct now = some (Except.ok (db', r')) →
      ChildInv i p db' := by
  intro fuel
  induction fuel with
  | zero =>
    intro db r nq ct db' r' _ _ _ _ hok
    rw [save] at hok
    cases hok
  | succ fuel ih =>
    intro db r nq ct db' r' hWF hnew hch hH hok
    obtain ⟨hidx, hstime⟩ := not_new_parts hnew
    have hInv2 : ChildInv i p (DB.mk (setAssoc db.msgdb (r.idx.getD 0) r)
        (reconcileTags db.tagdb r.tags (r.idx.getD 0)) db.transdb db.queuedb) := by
      by_cases hj : r.idx.getD 0 = p
      · refine ⟨r, ?_, hch (by rw [hidx, hj])⟩
        show getAssoc (setAssoc db.msgdb (r.idx.getD 0) r) p = some r
        rw [hj]
        exact getAssoc_setAssoc_self _ _ _
      · rcases hH with ⟨rec0, hrec0, hmem0⟩ | ⟨hrp, _⟩
        · refine ⟨rec0, ?_, hmem0⟩
          show getAssoc (setAssoc db.msgdb (r.idx.getD 0) r) p = some rec0
          rw [getAssoc_setAssoc_ne _ _ _ _ (fun he => hj he.symm)]
          exact hrec0
        · exact absurd (Option.some.inj (hidx.symm.trans hrp)) hj
    have hWF2 : ∀ q ∈ setAssoc db.msgdb (r.idx.getD 0) r,
        q.2.idx = some q.1 ∧ q.2.stime.isSome = true :=
      WF_setAssoc hWF hidx hstime
    have hWF2d : WF (DB.mk (setAssoc db.msgdb (r.idx.getD 0) r)
        (reconcileTags db.tagdb r.tags (r.idx.getD 0)) db.transdb db.queuedb) :=
      hWF2
    rw [save] at hok
    simp only [persistStep, hnew, Bool.false_eq_true, if_false,
      Bool.not_false, Bool.or_true, if_true] at hok
    split at hok
    · simp at hok
    · split at hok
      · -- no parent
        simp only [Option.some.injEq, Except.ok.injEq, Prod.mk.injEq] at hok
        obtain ⟨h1, h2⟩ := hok
        subst h1
        subst h2
        exact hInv2
      · next pp hpp =>
        split at hok
        · simp at hok
        · next pm hpm =>
          have hpmWF := hWF2 (pp, pm) (getAssoc_mem _ _ _ hpm)
          split at hok
          · -- distinct parent record: recursive save
            split at hok
            · cases hok
            · simp at hok
            · next q hrecx =>
              have hch2 :
                  ({ pm with children := addId pm.children (r.idx.getD 0) } : Msg).idx
                      = some p →
                  i ∈ ({ pm with
                    children := addId pm.children (r.idx.getD 0) } : Msg).children := by
                intro hpidx
                have hppp : pp = p :=
                  Option.some.inj ((hpmWF.1).symm.trans hpidx)
                obtain ⟨rec2, hrec2, hmem2⟩ := hInv2
                have hpmrec : pm = rec2 := by
                  rw [hppp] at hpm
                  exact Option.some.inj (hpm.symm.trans hrec2)
                show i ∈ addId pm.children (r.idx.getD 0)
                exact mem_addId_of_mem (by rw [hpmrec]; exact hmem2)
              have hnew2 : isNewMsg
                  { pm with children := addId pm.children (r.idx.getD 0) } = false :=
                isNew_false_of (show pm.idx = some pp from hpmWF.1) hpmWF.2
              have hInv3 := ih _ _ false none q.1 q.2 hWF2d hnew2 hch2
                (Or.inl hInv2) hrecx
              simp only [Option.some.injEq, Except.ok.injEq, Prod.mk.injEq] at hok
              obtain ⟨h1, h2⟩ := hok
              subst h1
              subst h2
              exact hInv3
          · -- self-parent record: strip and rewrite
            simp only [Option.some.injEq, Except.ok.injEq, Prod.mk.injEq] at hok
            obtain ⟨h1, h2⟩ := hok
            subst h1
            subst h2
            by_cases hj : r.idx.getD 0 = p
            · refine ⟨{ r with parent := none }, ?_, ?_⟩
              · rw [hj]
                exact getAssoc_setAssoc_self _ _ _
              · show i ∈ r.children
                exact hch (by rw [hidx, hj])
            · obtain ⟨rec2, hrec2, hmem2⟩ := hInv2
              refine ⟨rec2, ?_, hmem2⟩
              rw [getAssoc_setAssoc_ne _ _ _ _ (fun he => hj he.symm)]
              exact hrec2

end ChildInvLemmas

section ConcreteObjects

/-- A configuration with no network options set. -/
def cfgPlain : Config := ⟨none, none, none, "x84"⟩

/-- The empty store. -/
def dbEmpty : DB := ⟨[], [], [], []⟩

instance instDecEqExcept {ε α : Type} [DecidableEq ε] [DecidableEq α] :
    DecidableEq (Except ε α) := fun a b =>
  match a, b with
  | Except.error e1, Except.error e2 =>
    match decEq e1 e2 with
    | isTrue h => isTrue (by rw [h])
    | isFalse h => isFalse (fun hc => h (by cases hc; rfl))
  | Except.error _, Except.ok _ => isFalse (fun hc => Except.noConfusion hc)
  | Except.ok _, Except.error _ => isFalse (fun hc => Except.noConfusion hc)
  | Except.ok a1, Except.ok a2 =>
    match decEq a1 a2 with
    | isTrue h => isTrue (by rw [h])
    | isFalse h => isFalse (fun hc => h (by cases hc; rfl))

end ConcreteObjects

section ClaimC7

/-- C7: `list_msgs` with no tags (`None` or the empty list) returns exactly
the keys of the message table; with one or more tags it returns exactly the
union of the member sets of those query tags that exist in the tag table, so
unknown tags contribute nothing and an all-unknown query is empty. -/
theorem list_msgs_spec (db : DB) (ts : List String) (k : Nat) :
    (k ∈ list_msgs db (some ts) ↔
      ((ts = [] ∧ k ∈ msgKeys db) ∨
        ∃ t ∈ ts, (getAssoc db.tagdb t).isSome = true ∧ k ∈ tagMembers db t))
    ∧ (k ∈ list_msgs db none ↔ k ∈ msgKeys db) := by
  constructor
  · simp only [list_msgs]
    by_cases hts : ts = []
    · subst hts
      simp [msgKeys]
    · have hlen : ts.length ≠ 0 := by
        intro hc
        exact hts (List.length_eq_zero.mp hc)
      rw [if_pos hlen]
      simp only [List.mem_flatMap, List.mem_filter]
      constructor
      · rintro ⟨t, ⟨htts, hgt⟩, hk⟩
        exact Or.inr ⟨t, htts, (any_key_iff_getAssoc _ _).mp hgt, hk⟩
      · rintro (⟨he, _⟩ | ⟨t, htts, hsome, hk⟩)
        · exact absurd he hts
        · exact ⟨t, ⟨htts, (any_key_iff_getAssoc _ _).mpr hsome⟩, hk⟩
  · exact Iff.rfl

end ClaimC7

section ClaimC4

/-- C4: the tag walk of `save` never deletes a tag-table entry — the key set
after reconciliation is exactly the old key set plus the saved message's tags,
even when a member set is emptied — but `list_tags` itself, which the spec
says returns every tag ever used, dereferences the undefined global `TABDB`
(a typo for `TAGDB`) and therefore raises `NameError` on every call instead
of returning the keys of the tag table. -/
theorem reconcile_keeps_keys_but_list_tags_raises :
    (∀ (tagdb : List (String × List Nat)) (tags : List String) (i : Nat)
      (t : String),
      (getAssoc (reconcileTags tagdb tags i) t).isSome =
        ((getAssoc tagdb t).isSome || decide (t ∈ tags)))
    ∧ ∀ db : DB,
        list_tags db = Except.error "NameError: name TABDB is not defined" :=
  ⟨fun tagdb tags i t => reconcile_isSome tagdb tags i t, fun _ => rfl⟩

end ClaimC4

section ClaimC9

/-- C9: saving a message that is already persisted (index assigned and save
time stamped) leaves its index, creation time and save time unchanged; the
save time therefore keeps the value stamped at the first persist. -/
theorem save_keeps_identity_fields (cfg : Config) (now : Nat) (fuel : Nat)
    (db : DB) (m : Msg) (nq : Bool) (ct : Option Nat) (db' : DB) (m' : Msg)
    (j s : Nat) (hj : m.idx = some j) (hs : m.stime = some s)
    (hok : save cfg fuel db m nq ct now = some (Except.ok (db', m'))) :
    m'.idx = some j ∧ m'.stime = some s ∧ m'.ctime = m.ctime := by
  have hfr := (save_frame cfg now fuel db m nq ct db' m' hok).2.2.2
    (isNew_false_of hj (by rw [hs]; rfl))
  exact ⟨hfr.1.trans hj, hfr.2.1.trans hs, hfr.2.2.1⟩

/-- A concrete already-persisted record used by the C9 witness. -/
def mW9 : Msg := ⟨some 4, 2, some 6, none, none, "s", "b", [], [], none⟩

/-- Witness for C9 on a concrete store: a second save of an already-persisted
record keeps index 4, save time 6 and creation time 2. -/
theorem save_keeps_identity_fields_witness :
    mW9.idx = some 4 ∧ mW9.stime = some 6
    ∧ (∃ db' m', save cfgPlain 1 dbEmpty mW9 false none 9 =
        some (Except.ok (db', m'))
      ∧ m'.idx = some 4 ∧ m'.stime = some 6 ∧ m'.ctime = mW9.ctime) :=
  ⟨rfl, rfl, ⟨[(4, mW9)], [], [], []⟩, mW9, rfl,
    save_keeps_identity_fields cfgPlain 9 1 dbEmpty mW9 false none
      ⟨[(4, mW9)], [], [], []⟩ mW9 4 6 rfl rfl rfl⟩

end ClaimC9

section ClaimC10

/-- C10: when a message names a parent that is also among its own children,
`save` raises the `assert self.parent not in self.children` failure after the
record has been written to the message table and the tag table has been
reconciled, but before the thread link is updated: the error state carries
the already-modified message and tag tables, while the transit and queue
tables are untouched — no atomicity on this error. -/
theorem save_assert_parent_in_children (cfg : Config) (fuel : Nat) (db : DB)
    (m : Msg) (nq : Bool) (ct : Option Nat) (now : Nat) (p : Nat)
    (hp : m.parent = some p) (hc : p ∈ m.children) :
    save cfg (fuel+1) db m nq ct now =
      some (Except.error (SaveErr.assertFail,
        DB.mk
          (setAssoc db.msgdb ((persistStep db m ct now).2.1.idx.getD 0)
            (persistStep db m ct now).2.1)
          (reconcileTags db.tagdb m.tags
            ((persistStep db m ct now).2.1.idx.getD 0))
          db.transdb db.queuedb)) := by
  have hviol : assertViolated (persistStep db m ct now).2.1 = true := by
    unfold persistStep assertViolated
    cases hnew : isNewMsg m <;> simp [hp, hc]
  rw [save]
  cases hnew : isNewMsg m
  · simp only [persistStep, hnew, Bool.false_eq_true, if_false] at hviol ⊢
    rw [if_pos hviol]
  · simp only [persistStep, hnew, if_true] at hviol ⊢
    rw [if_pos hviol]

/-- Witness for C10: a concrete self-conflicting message; the save fails with
the assertion error and the message and tag tables in the error state are
already modified. -/
theorem save_assert_parent_in_children_witness :
    (⟨some 0, 1, some 2, none, none, "s", "b", ["x"], [0], some 0⟩ : Msg).parent
        = some 0
    ∧ 0 ∈ (⟨some 0, 1, some 2, none, none, "s", "b", ["x"], [0], some 0⟩
        : Msg).children
    ∧ save cfgPlain 1 dbEmpty
        ⟨some 0, 1, some 2, none, none, "s", "b", ["x"], [0], some 0⟩
        false none 9 =
      some (Except.error (SaveErr.assertFail,
        DB.mk
          (setAssoc dbEmpty.msgdb
            ((persistStep dbEmpty
              ⟨some 0, 1, some 2, none, none, "s", "b", ["x"], [0], some 0⟩
              none 9).2.1.idx.getD 0)
            (persistStep dbEmpty
              ⟨some 0, 1, some 2, none, none, "s", "b", ["x"], [0], some 0⟩
              none 9).2.1)
          (reconcileTags dbEmpty.tagdb
            (⟨some 0, 1, some 2, none, none, "s", "b", ["x"], [0], some 0⟩
              : Msg).tags
            ((persistStep dbEmpty
              ⟨some 0, 1, some 2, none, none, "s", "b", ["x"], [0], some 0⟩
              none 9).2.1.idx.getD 0))
          dbEmpty.transdb dbEmpty.queuedb)) :=
  ⟨rfl, by decide,
    save_assert_parent_in_children cfgPlain 0 dbEmpty _ false none 9 0 rfl
      (by decide)⟩

end ClaimC10

section ClaimC5

/-- C5: saving an already-persisted message whose parent field names its own
index completes normally (no exception reaches the caller): the parent link
is stripped and the record persisted at its key carries `parent = none`. -/
theorem save_self_parent_strips (cfg : Config) (fuel : Nat) (db : DB)
    (m : Msg) (nq : Bool) (ct : Option Nat) (now : Nat) (p s : Nat)
    (h1 : m.idx = some p) (h2 : m.stime = some s) (h3 : m.parent = some p)
    (h4 : p ∉ m.children) :
    ∃ db' m', save cfg (fuel+1) db m nq ct now = some (Except.ok (db', m'))
      ∧ m'.parent = none ∧ m'.idx = some p
      ∧ getAssoc db'.msgdb p = some m' := by
  have hnew : isNewMsg m = false := isNew_false_of h1 (by rw [h2]; rfl)
  have hav : ¬ assertViolated m = true := by
    unfold assertViolated
    rw [h3]
    simpa using h4
  rw [save]
  simp only [persistStep, hnew, Bool.false_eq_true, if_false, Bool.not_false,
    Bool.or_true, if_true, h1, Option.getD_some, h3]
  rw [if_neg hav]
  simp only [getAssoc_setAssoc_self, h1]
  rw [if_neg (show ¬ ((some p : Option Nat) ≠ some p) from fun hne => hne rfl)]
  exact ⟨_, _, rfl, rfl, rfl, getAssoc_setAssoc_self _ _ _⟩

/-- Witness for C5: a concrete self-parent record at index 3; the save
completes, the returned record has no parent, and the stored record at key 3
has no parent. -/
theorem save_self_parent_strips_witness :
    (⟨some 3, 1, some 2, none, none, "s", "b", [], [7], some 3⟩ : Msg).parent
        = some 3
    ∧ (∃ db' m', save cfgPlain 1 dbEmpty
        ⟨some 3, 1, some 2, none, none, "s", "b", [], [7], some 3⟩
        false none 9 = some (Except.ok (db', m'))
      ∧ m'.parent = none ∧ m'.idx = some 3
      ∧ getAssoc db'.msgdb 3 = some m') :=
  ⟨rfl, save_self_parent_strips cfgPlain 0 dbEmpty _ false none 9 3 2
    rfl rfl rfl (by decide)⟩

end ClaimC5

section ClaimC1

/-- A completed save of a new message assigns the index
`max(existing keys, default -1) + 1` and that index is afterwards a key of
the message table. -/
theorem save_new_core (cfg : Config) (now : Nat) :
    ∀ fuel db m nq ct db' m',
      isNewMsg m = true →
      save cfg fuel db m nq ct now = some (Except.ok (db', m')) →
      m'.idx = some (nextIdx db) ∧ nextIdx db ∈ msgKeys db' := by
  intro fuel
  cases fuel with
  | zero =>
    intro db m nq ct db' m' _ hok
    rw [save] at hok
    cases hok
  | succ fuel =>
    intro db m nq ct db' m' hnew hok
    rw [save] at hok
    simp only [persistStep, hnew, if_true, Bool.not_true, Bool.or_false,
      Option.getD_some] at hok
    split at hok
    · simp at hok
    · split at hok
      · -- no parent
        split at hok
        · simp only [Option.some.injEq, Except.ok.injEq, Prod.mk.injEq] at hok
          obtain ⟨h1, h2⟩ := hok
          subst h1
          subst h2
          exact ⟨rfl, (mem_keysOf_setAssoc _ _ _ _).mpr (Or.inl rfl)⟩
        · rcases dispatchWith_ok _ _ _ _ _ _ hok with ⟨rfl, rfl⟩ |
            ⟨t, _, rfl, rfl⟩ | ⟨t, d2, _, hs, rfl⟩
          · exact ⟨rfl, (mem_keysOf_setAssoc _ _ _ _).mpr (Or.inl rfl)⟩
          · exact ⟨rfl, (mem_keysOf_setAssoc _ _ _ _).mpr (Or.inl rfl)⟩
          · have hfr2 := save_frame cfg now fuel _ _ false none d2 m' hs
            exact ⟨(hfr2.2.2.2 rfl).1, hfr2.1 _
              ((mem_keysOf_setAssoc _ _ _ _).mpr (Or.inl rfl))⟩
      · next p hp =>
        split at hok
        · simp at hok
        · next pm hpm =>
          split at hok
          · -- distinct parent record: recursive save
            split at hok
            · cases hok
            · simp at hok
            · next q hrec =>
              have hfr := save_frame cfg now fuel _ _ false none q.1 q.2 hrec
              split at hok
              · simp only [Option.some.injEq, Except.ok.injEq,
                  Prod.mk.injEq] at hok
                obtain ⟨h1, h2⟩ := hok
                subst h1
                subst h2
                exact ⟨rfl, hfr.1 _
                  ((mem_keysOf_setAssoc _ _ _ _).mpr (Or.inl rfl))⟩
              · rcases dispatchWith_ok _ _ _ _ _ _ hok with ⟨rfl, rfl⟩ |
                  ⟨t, _, rfl, rfl⟩ | ⟨t, d2, _, hs, rfl⟩
                · exact ⟨rfl, hfr.1 _
                    ((mem_keysOf_setAssoc _ _ _ _).mpr (Or.inl rfl))⟩
                · exact ⟨rfl, hfr.1 _
                    ((mem_keysOf_setAssoc _ _ _ _).mpr (Or.inl rfl))⟩
                · have hfr2 := save_frame cfg now fuel _ _ false none d2 m' hs
                  exact ⟨(hfr2.2.2.2 rfl).1, hfr2.1 _ (hfr.1 _
                    ((mem_keysOf_setAssoc _ _ _ _).mpr (Or.inl rfl)))⟩
          · -- self-parent record: strip and rewrite
            split at hok
            · simp only [Option.some.injEq, Except.ok.injEq,
                Prod.mk.injEq] at hok
              obtain ⟨h1, h2⟩ := hok
              subst h1
              subst h2
              exact ⟨rfl, (mem_keysOf_setAssoc _ _ _ _).mpr (Or.inl rfl)⟩
            · rcases dispatchWith_ok _ _ _ _ _ _ hok with ⟨rfl, rfl⟩ |
                ⟨t, _, rfl, rfl⟩ | ⟨t, d2, _, hs, rfl⟩
              · exact ⟨rfl, (mem_keysOf_setAssoc _ _ _ _).mpr (Or.inl rfl)⟩
              · exact ⟨rfl, (mem_keysOf_setAssoc _ _ _ _).mpr (Or.inl rfl)⟩
              · have hfr2 := save_frame cfg now fuel _ _ false none d2 m' hs
                exact ⟨(hfr2.2.2.2 rfl).1, hfr2.1 _
                  ((mem_keysOf_setAssoc _ _ _ _).mpr (Or.inl rfl))⟩

/-- C1: a completed save of a new message assigns it exactly the index
`max(existing keys, default -1) + 1`; that index is strictly greater than
every pre-existing key, it becomes a key, old keys survive, and any further
new save on the resulting store mints a strictly larger index — so over any
sequence of saves the assigned indices are unique, never reused, and
strictly increasing in save order. -/
theorem save_assigns_unique_increasing_ids (cfg : Config) (now : Nat)
    (fuel : Nat) (db : DB) (m : Msg) (nq : Bool) (ct : Option Nat)
    (db' : DB) (m' : Msg)
    (hnew : isNewMsg m = true)
    (hok : save cfg fuel db m nq ct now = some (Except.ok (db', m'))) :
    m'.idx = some (nextIdx db)
    ∧ (∀ k ∈ msgKeys db, k < nextIdx db)
    ∧ nextIdx db ∈ msgKeys db'
    ∧ (∀ k ∈ msgKeys db, k ∈ msgKeys db')
    ∧ (∀ fuel2 m2 nq2 ct2 now2 db'' m'',
        isNewMsg m2 = true →
        save cfg fuel2 db' m2 nq2 ct2 now2 = some (Except.ok (db'', m'')) →
        m''.idx = some (nextIdx db') ∧ nextIdx db < nextIdx db') := by
  have hcore := save_new_core cfg now fuel db m nq ct db' m' hnew hok
  have hfr := save_frame cfg now fuel db m nq ct db' m' hok
  refine ⟨hcore.1, fun k hk => lt_nextIdx_of_mem db k hk, hcore.2,
    hfr.1, ?_⟩
  intro fuel2 m2 nq2 ct2 now2 db'' m'' hnew2 hok2
  exact ⟨(save_new_core cfg now2 fuel2 db' m2 nq2 ct2 db'' m'' hnew2 hok2).1,
    lt_nextIdx_of_mem db' (nextIdx db) hcore.2⟩

/-- A fresh message used in the C1 and C2 witnesses. -/
def mNew : Msg := ⟨none, 1, none, none, none, "s", "b", ["x"], [], none⟩

/-- A store already holding a record at key 2, used by the C1 witness. -/
def dbW1 : DB := ⟨[(2, mW9)], [], [], []⟩

/-- Witness for C1: saving a fresh message into a store whose only key is 2
assigns index 3, key 2 is below 3 and survives, and a chained second new
save mints index 4 greater than 3. -/
theorem save_assigns_unique_increasing_ids_witness :
    isNewMsg mNew = true
    ∧ (∃ db' m', save cfgPlain 1 dbW1 mNew false none 7 =
        some (Except.ok (db', m'))
      ∧ m'.idx = some (nextIdx dbW1)
      ∧ nextIdx dbW1 ∈ msgKeys db'
      ∧ (∀ fuel2 m2 nq2 ct2 now2 db'' m'',
          isNewMsg m2 = true →
          save cfgPlain fuel2 db' m2 nq2 ct2 now2 = some (Except.ok (db'', m'')) →
          m''.idx = some (nextIdx db') ∧ nextIdx dbW1 < nextIdx db')) := by
  have hok : save cfgPlain 1 dbW1 mNew false none 7 =
      some (Except.ok (⟨[(2, mW9), (3,
        ⟨some 3, 1, some 7, none, none, "s", "b", ["x"], [], none⟩)],
        [("x", [3])], [], []⟩,
        ⟨some 3, 1, some 7, none, none, "s", "b", ["x"], [], none⟩)) := by
    decide
  have hres := save_assigns_unique_increasing_ids cfgPlain 7 1 dbW1 mNew
    false none _ _ rfl hok
  exact ⟨rfl, _, _, hok, hres.1, hres.2.2.1, hres.2.2.2.2⟩

end ClaimC1

section ClaimC2

/-- The record already stored at key 0, carrying the tag `shared`, for the C2
counterexample. -/
def pmC2 : Msg := ⟨some 0, 0, some 5, none, none, "", "", ["shared"], [], none⟩

/-- Store for the C2 counterexample: one record at key 0, no tag entries. -/
def dbC2 : DB := ⟨[(0, pmC2)], [], [], []⟩

/-- A fresh reply to message 0 sharing the brand-new tag `shared`. -/
def mC2 : Msg := ⟨none, 1, none, none, none, "", "", ["shared"], [], some 0⟩

/-- Counterexample to C2 as stated: the tag `shared` is not yet in the tag
table and is carried by the new message, so the claim promises the created
entry holds exactly the new id 1; but the thread step re-saves the parent,
whose own reconcile adds the parent id too, and the save completes with
`shared` mapped to `[1, 0]`, not `[1]`. -/
theorem save_tag_created_exactly_counterexample :
    (getAssoc dbC2.tagdb "shared").isSome = false
    ∧ "shared" ∈ mC2.tags
    ∧ isNewMsg mC2 = true
    ∧ mC2.parent = some 0
    ∧ (∃ db' m', save cfgPlain 3 dbC2 mC2 false none 9 =
        some (Except.ok (db', m'))
      ∧ m'.idx = some 1
      ∧ getAssoc db'.tagdb "shared" = some [1, 0]
      ∧ ¬ getAssoc db'.tagdb "shared" = some [1]) := by
  refine ⟨rfl, by decide, rfl, rfl,
    ⟨[(0, ⟨some 0, 0, some 5, none, none, "", "", ["shared"], [1], none⟩),
      (1, ⟨some 1, 1, some 9, none, none, "", "", ["shared"], [], some 0⟩)],
     [("shared", [1, 0])], [], []⟩,
    ⟨some 1, 1, some 9, none, none, "", "", ["shared"], [], some 0⟩,
    by decide, rfl, by decide, by decide⟩

/-- C2 (amended): after a completed save of a new message `m`, every tag of
the final tag table contains the new id exactly when `m` carries that tag,
and the final table keys include every previously known tag and every tag of
`m`.  Amendment forced by the counterexample: a tag of `m` first created by
this save holds the new id but need not be exactly the singleton of it — when
the parent of `m` shares that brand-new tag, the cascaded parent re-save adds
the parent id to the entry as well. -/
theorem save_tag_index_membership (cfg : Config) (now : Nat) (fuel : Nat)
    (db : DB) (m : Msg) (nq : Bool) (ct : Option Nat) (db' : DB) (m' : Msg)
    (hWF : WF db) (hnew : isNewMsg m = true)
    (hok : save cfg fuel db m nq ct now = some (Except.ok (db', m'))) :
    (∀ t, ((getAssoc db.tagdb t).isSome = true ∨ t ∈ m.tags) →
      (getAssoc db'.tagdb t).isSome = true)
    ∧ (∀ t, (getAssoc db'.tagdb t).isSome = true →
        (nextIdx db ∈ (getAssoc db'.tagdb t).getD [] ↔ t ∈ m.tags)) := by
  have hfr := save_frame cfg now fuel db m nq ct db' m' hok
  suffices hfin : TagInv (nextIdx db) m.tags db' by
    exact ⟨fun t ht => ht.elim (fun hpre => hfr.2.1 t hpre)
      (fun hmem => hfin.2.1 t hmem), hfin.1⟩
  cases fuel with
  | zero =>
    rw [save] at hok
    cases hok
  | succ fuel =>
    rw [save] at hok
    simp only [persistStep, hnew, if_true, Bool.not_true, Bool.or_false,
      Option.getD_some] at hok
    have hInv2 : TagInv (nextIdx db) m.tags
        (DB.mk (setAssoc db.msgdb (nextIdx db)
          { m with idx := some (nextIdx db), ctime := ct.getD m.ctime,
                   stime := some (ct.getD now) })
        (reconcileTags db.tagdb m.tags (nextIdx db)) db.transdb db.queuedb) := by
      refine ⟨fun t _ => reconcile_mem_self db.tagdb m.tags (nextIdx db) t,
        fun t ht => ?_, ?_⟩
      · rw [reconcile_isSome]
        simp [ht]
      · exact ⟨_, getAssoc_setAssoc_self _ _ _, rfl⟩
    have hWF2 : ∀ p ∈ setAssoc db.msgdb (nextIdx db)
        { m with idx := some (nextIdx db), ctime := ct.getD m.ctime,
                 stime := some (ct.getD now) },
        p.2.idx = some p.1 ∧ p.2.stime.isSome = true :=
      WF_setAssoc hWF rfl rfl
    have hWF2d : WF (DB.mk (setAssoc db.msgdb (nextIdx db)
        { m with idx := some (nextIdx db), ctime := ct.getD m.ctime,
                 stime := some (ct.getD now) })
        (reconcileTags db.tagdb m.tags (nextIdx db)) db.transdb db.queuedb) :=
      hWF2
    split at hok
    · simp at hok
    · split at hok
      · -- no parent
        split at hok
        · simp only [Option.some.injEq, Except.ok.injEq, Prod.mk.injEq] at hok
          obtain ⟨h1, h2⟩ := hok
          subst h1
          subst h2
          exact hInv2
        · rcases dispatchWith_ok _ _ _ _ _ _ hok with ⟨rfl, rfl⟩ |
            ⟨t, _, rfl, rfl⟩ | ⟨t, d2, _, hs, rfl⟩
          · exact hInv2
          · exact hInv2
          · refine save_tag_inv cfg now (nextIdx db) m.tags fuel _ _ false none
              d2 m' hWF2d ?_ ?_ hInv2 hs
            · rfl
            · exact fun _ => rfl
      · next p hp =>
        split at hok
        · simp at hok
        · next pm hpm =>
          have hpmWF := hWF2 (p, pm) (getAssoc_mem _ _ _ hpm)
          split at hok
          · -- distinct parent record: recursive save, then maybe dispatch
            split at hok
            · cases hok
            · simp at hok
            · next q hrec =>
              have hti2 :
                  ({ pm with children := addId pm.children (nextIdx db) } : Msg).idx
                      = some (nextIdx db) →
                  ({ pm with children := addId pm.children (nextIdx db) } : Msg).tags
                      = m.tags := by
                intro hpidx
                have hpi : p = nextIdx db :=
                  Option.some.inj ((hpmWF.1).symm.trans hpidx)
                obtain ⟨rec2, hrec2, htags2⟩ := hInv2.2.2
                have hpmrec : pm = rec2 := by
                  rw [hpi] at hpm
                  exact Option.some.inj (hpm.symm.trans hrec2)
                show pm.tags = m.tags
                rw [hpmrec]
                exact htags2
              have hnew2 : isNewMsg
                  { pm with children := addId pm.children (nextIdx db) } = false :=
                isNew_false_of (show pm.idx = some p from hpmWF.1) hpmWF.2
              have hInv3 := save_tag_inv cfg now (nextIdx db) m.tags fuel _ _
                false none q.1 q.2 hWF2d hnew2 hti2 hInv2 hrec
              have hWFq := (save_wf cfg now fuel _ _ false none q.1 q.2
                hWF2d hrec).1
              split at hok
              · simp only [Option.some.injEq, Except.ok.injEq,
                  Prod.mk.injEq] at hok
                obtain ⟨h1, h2⟩ := hok
                subst h1
                subst h2
                exact hInv3
              · rcases dispatchWith_ok _ _ _ _ _ _ hok with ⟨rfl, rfl⟩ |
                  ⟨t, _, rfl, rfl⟩ | ⟨t, d2, _, hs, rfl⟩
                · exact hInv3
                · exact hInv3
                · refine save_tag_inv cfg now (nextIdx db) m.tags fuel _ _
                    false none d2 m' hWFq ?_ ?_ hInv3 hs
                  · rfl
                  · exact fun _ => rfl
          · -- self-parent record: strip, rewrite, then maybe dispatch
            have hInv3 : TagInv (nextIdx db) m.tags
                (DB.mk (setAssoc (setAssoc db.msgdb (nextIdx db)
                  { m with idx := some (nextIdx db), ctime := ct.getD m.ctime,
                           stime := some (ct.getD now) }) (nextIdx db)
                  { m with idx := some (nextIdx db), ctime := ct.getD m.ctime,
                           stime := some (ct.getD now), parent := none })
                (reconcileTags db.tagdb m.tags (nextIdx db))
                db.transdb db.queuedb) :=
              ⟨hInv2.1, hInv2.2.1, ⟨_, getAssoc_setAssoc_self _ _ _, rfl⟩⟩
            have hWF3d : WF (DB.mk (setAssoc (setAssoc db.msgdb (nextIdx db)
                { m with idx := some (nextIdx db), ctime := ct.getD m.ctime,
                         stime := some (ct.getD now) }) (nextIdx db)
                { m with idx := some (nextIdx db), ctime := ct.getD m.ctime,
                         stime := some (ct.getD now), parent := none })
                (reconcileTags db.tagdb m.tags (nextIdx db))
                db.transdb db.queuedb) :=
              forall_mem_setAssoc _ _ _ hWF2 ⟨rfl, rfl⟩
            split at hok
            · simp only [Option.some.injEq, Except.ok.injEq,
                Prod.mk.injEq] at hok
              obtain ⟨h1, h2⟩ := hok
              subst h1
              subst h2
              exact hInv3
            · rcases dispatchWith_ok _ _ _ _ _ _ hok with ⟨rfl, rfl⟩ |
                ⟨t, _, rfl, rfl⟩ | ⟨t, d2, _, hs, rfl⟩
              · exact hInv3
              · exact hInv3
              · refine save_tag_inv cfg now (nextIdx db) m.tags fuel _ _
                  false none d2 m' hWF3d ?_ ?_ hInv3 hs
                · rfl
                · exact fun _ => rfl

/-- Store for the C2 witness: a record at key 0 and a pre-existing tag `old`
whose member set holds 0 and, wrongly for the new message, the id 1 the next
save will mint — the save must remove 1 from `old` and create `x` with 1. -/
def dbW2 : DB := ⟨[(0, pmC2)], [("old", [0, 1])], [], []⟩

/-- Witness for C2 (amended): saving a fresh `x`-tagged message into `dbW2`
mints id 1; afterwards `old` is still known but no longer holds 1, and `x`
is known and holds 1. -/
theorem save_tag_index_membership_witness :
    WF dbW2 ∧ isNewMsg mNew = true
    ∧ (∃ db' m', save cfgPlain 1 dbW2 mNew false none 7 =
        some (Except.ok (db', m'))
      ∧ ((getAssoc db'.tagdb "old").isSome = true
        ∧ ¬ (nextIdx dbW2 ∈ (getAssoc db'.tagdb "old").getD []))
      ∧ ((getAssoc db'.tagdb "x").isSome = true
        ∧ nextIdx dbW2 ∈ (getAssoc db'.tagdb "x").getD [])) := by
  have hok : save cfgPlain 1 dbW2 mNew false none 7 =
      some (Except.ok (⟨[(0, pmC2), (1,
        ⟨some 1, 1, some 7, none, none, "s", "b", ["x"], [], none⟩)],
        [("old", [0]), ("x", [1])], [], []⟩,
        ⟨some 1, 1, some 7, none, none, "s", "b", ["x"], [], none⟩)) := by
    decide
  have hres := save_tag_index_membership cfgPlain 7 1 dbW2 mNew false none _ _
    (by decide) rfl hok
  refine ⟨by decide, rfl, _, _, hok, ?_, ?_⟩
  · refine ⟨hres.1 "old" (Or.inl (by decide)), ?_⟩
    intro hc
    have := (hres.2 "old" (hres.1 "old" (Or.inl (by decide)))).mp hc
    simp [mNew] at this
  · refine ⟨hres.1 "x" (Or.inr (by decide)), ?_⟩
    exact (hres.2 "x" (hres.1 "x" (Or.inr (by decide)))).mpr (by decide)

end ClaimC2

section ClaimC6

/-- C6: saving a message whose parent field names an existing record with a
key different from the saved message's own index leaves the parent record —
re-persisted through the full save pipeline — holding the saved message's
index among its children. -/
theorem save_parent_gains_child (cfg : Config) (now : Nat) (fuel : Nat)
    (db : DB) (m : Msg) (nq : Bool) (ct : Option Nat) (db' : DB) (m' : Msg)
    (p : Nat) (pm0 : Msg)
    (hWF : WF db)
    (hp : m.parent = some p)
    (_hpm0 : getAssoc db.msgdb p = some pm0)
    (hne : (if isNewMsg m then nextIdx db else m.idx.getD 0) ≠ p)
    (hok : save cfg fuel db m nq ct now = some (Except.ok (db', m'))) :
    ∃ rec, getAssoc db'.msgdb p = some rec ∧
      (if isNewMsg m then nextIdx db else m.idx.getD 0) ∈ rec.children := by
  cases fuel with
  | zero =>
    rw [save] at hok
    cases hok
  | succ fuel =>
    rw [save] at hok
    cases hnew : isNewMsg m
    · -- already-persisted message
      simp only [hnew, Bool.false_eq_true, if_false] at hne ⊢
      obtain ⟨hidx, hstime⟩ := not_new_parts hnew
      have hWF2 : ∀ r ∈ setAssoc db.msgdb (m.idx.getD 0) m,
          r.2.idx = some r.1 ∧ r.2.stime.isSome = true :=
        WF_setAssoc hWF hidx hstime
      have hWF2d : WF (DB.mk (setAssoc db.msgdb (m.idx.getD 0) m)
          (reconcileTags db.tagdb m.tags (m.idx.getD 0))
          db.transdb db.queuedb) := hWF2
      simp only [persistStep, hnew, Bool.false_eq_true, if_false,
        Bool.not_false, Bool.or_true, if_true] at hok
      split at hok
      · simp at hok
      · split at hok
        · next x heq =>
          rw [hp] at heq
          cases heq
        · next x p2 hp2 =>
          have hp2p : p = p2 := Option.some.inj (hp.symm.trans hp2)
          subst hp2p
          split at hok
          · simp at hok
          · next x2 pm hpm =>
            have hpmWF := hWF2 (p, pm) (getAssoc_mem _ _ _ hpm)
            split at hok
            · -- recursive parent save
              split at hok
              · cases hok
              · simp at hok
              · next q hrec =>
                have hnew2 : isNewMsg
                    { pm with children := addId pm.children (m.idx.getD 0) } = false :=
                  isNew_false_of (show pm.idx = some p from hpmWF.1) hpmWF.2
                have hchild := save_child_inv cfg now (m.idx.getD 0) p fuel _ _
                  false none q.1 q.2 hWF2d hnew2
                  (fun _ => mem_addId_self pm.children (m.idx.getD 0))
                  (Or.inr ⟨show pm.idx = some p from hpmWF.1,
                    mem_addId_self pm.children (m.idx.getD 0)⟩)
                  hrec
                simp only [Option.some.injEq, Except.ok.injEq,
                  Prod.mk.injEq] at hok
                obtain ⟨h1, h2⟩ := hok
                subst h1
                subst h2
                exact hchild
            · -- the idx-equal branch is impossible: i differs from p
              next hcond =>
              have heqidx := not_not.mp hcond
              exact absurd (Option.some.inj (hidx.symm.trans
                (heqidx.trans hpmWF.1))) hne
    · -- new message
      simp only [hnew, if_true] at hne ⊢
      have hWF2 : ∀ r ∈ setAssoc db.msgdb (nextIdx db)
          { m with idx := some (nextIdx db), ctime := ct.getD m.ctime,
                   stime := some (ct.getD now) },
          r.2.idx = some r.1 ∧ r.2.stime.isSome = true :=
        WF_setAssoc hWF rfl rfl
      have hWF2d : WF (DB.mk (setAssoc db.msgdb (nextIdx db)
          { m with idx := some (nextIdx db), ctime := ct.getD m.ctime,
                   stime := some (ct.getD now) })
          (reconcileTags db.tagdb m.tags (nextIdx db))
          db.transdb db.queuedb) := hWF2
      simp only [persistStep, hnew, if_true, Bool.not_true, Bool.or_false,
        Option.getD_some] at hok
      split at hok
      · simp at hok
      · split at hok
        · next x heq =>
          rw [hp] at heq
          cases heq
        · next x p2 hp2 =>
          have hp2p : p = p2 := Option.some.inj (hp.symm.trans hp2)
          subst hp2p
          split at hok
          · simp at hok
          · next x2 pm hpm =>
            have hpmWF := hWF2 (p, pm) (getAssoc_mem _ _ _ hpm)
            split at hok
            · -- recursive parent save, then maybe dispatch
              split at hok
              · cases hok
              · simp at hok
              · next q hrec =>
                have hnew2 : isNewMsg
                    { pm with children := addId pm.children (nextIdx db) } = false :=
                  isNew_false_of (show pm.idx = some p from hpmWF.1) hpmWF.2
                have hchild := save_child_inv cfg now (nextIdx db) p fuel _ _
                  false none q.1 q.2 hWF2d hnew2
                  (fun _ => mem_addId_self pm.children (nextIdx db))
                  (Or.inr ⟨show pm.idx = some p from hpmWF.1,
                    mem_addId_self pm.children (nextIdx db)⟩)
                  hrec
                have hWFq := (save_wf cfg now fuel _ _ false none q.1 q.2
                  hWF2d hrec).1
                split at hok
                · simp only [Option.some.injEq, Except.ok.injEq,
                    Prod.mk.injEq] at hok
                  obtain ⟨h1, h2⟩ := hok
                  subst h1
                  subst h2
                  exact hchild
                · rcases dispatchWith_ok _ _ _ _ _ _ hok with ⟨rfl, rfl⟩ |
                    ⟨t, _, rfl, rfl⟩ | ⟨t, d2, _, hs, rfl⟩
                  · exact hchild
                  · exact hchild
                  · refine save_child_inv cfg now (nextIdx db) p fuel _ _
                      false none d2 m' hWFq ?_ ?_ (Or.inl hchild) hs
                    · rfl
                    · exact fun hcontra =>
                        absurd (Option.some.inj hcontra) hne
            · -- the idx-equal branch is impossible: the minted index differs
              next hcond =>
              have heqidx := not_not.mp hcond
              exact absurd (Option.some.inj (heqidx.trans hpmWF.1)) hne

/-- A fresh reply to message 0, used by the C6 witness. -/
def mW6 : Msg := ⟨none, 1, none, none, none, "s", "b", [], [], some 0⟩

/-- Store for the C6 witness: one record at key 0 with no children. -/
def dbW6 : DB := ⟨[(0, pmC2)], [], [], []⟩

/-- Witness for C6: saving a fresh reply to the record at key 0 mints index 1
and the re-saved parent record lists 1 among its children. -/
theorem save_parent_gains_child_witness :
    WF dbW6 ∧ mW6.parent = some 0
    ∧ (∃ db' m', save cfgPlain 2 dbW6 mW6 false none 7 =
        some (Except.ok (db', m'))
      ∧ ∃ rec, getAssoc db'.msgdb 0 = some rec ∧
          (if isNewMsg mW6 then nextIdx dbW6 else mW6.idx.getD 0) ∈ rec.children) := by
  have hok : save cfgPlain 2 dbW6 mW6 false none 7 =
      some (Except.ok (⟨[(0,
        ⟨some 0, 0, some 5, none, none, "", "", ["shared"], [1], none⟩), (1,
        ⟨some 1, 1, some 7, none, none, "s", "b", [], [], some 0⟩)],
        [("shared", [0])], [], []⟩,
        ⟨some 1, 1, some 7, none, none, "s", "b", [], [], some 0⟩)) := by
    decide
  refine ⟨by decide, rfl, _, _, hok, ?_⟩
  exact save_parent_gains_child cfgPlain 7 2 dbW6 mW6 false none _ _ 0 pmC2
    (by decide) rfl rfl (by decide) hok

end ClaimC6

section ClaimC3

/-- What the dispatch block of `save` does to the transit tables, the queue
tables and the message body, as a function of the configuration and the
message tag list: no qualifying tag means no change; the first tag in the
configured server list wins over the network list, appends the origin line
and records `i -> i` in that network transit table; otherwise the first tag
in the network list records `i -> tag` in that network outbound queue table
with the body untouched; at most one action happens. -/
def DispatchSpec (cfg : Config) (tags : List String) (i : Nat)
    (trans0 : List (String × List (Nat × Nat)))
    (queue0 : List (String × List (Nat × String)))
    (body0 : String) (db' : DB) (m' : Msg) : Prop :=
  match cfg.network_tags with
  | none => db'.transdb = trans0 ∧ db'.queuedb = queue0 ∧ m'.body = body0
  | some nstr =>
    if (parseTagsCfg nstr).length = 0 then
      db'.transdb = trans0 ∧ db'.queuedb = queue0 ∧ m'.body = body0
    else
      match tags.find? (fun t => (server_tags_of cfg).contains t
          || (parseTagsCfg nstr).contains t) with
      | none => db'.transdb = trans0 ∧ db'.queuedb = queue0 ∧ m'.body = body0
      | some t =>
        if (server_tags_of cfg).contains t = true then
          db'.transdb = setTable trans0 t i i ∧ db'.queuedb = queue0
          ∧ m'.body = body0 ++ format_origin_line cfg ∧ m'.idx = some i
        else
          db'.queuedb = setTable queue0 t i t ∧ db'.transdb = trans0
          ∧ m'.body = body0 ∧ m'.idx = some i

theorem dispatch_precise_frame (cfg : Config) (now : Nat) (fuel : Nat)
    (dbx : DB) (mx : Msg) (db' : DB) (m' : Msg) (i : Nat)
    (hWFx : WF dbx) (hnn : isNewMsg mx = false) (hidx : mx.idx = some i)
    (h : dispatchWith cfg (fun d mm => save cfg fuel d mm false none now) dbx mx
      = some (Except.ok (db', m'))) :
    DispatchSpec cfg mx.tags i dbx.transdb dbx.queuedb mx.body db' m' := by
  unfold DispatchSpec
  unfold dispatchWith at h
  rcases hnt : cfg.network_tags with _ | nstr
  · rw [hnt] at h
    simp only [Option.some.injEq, Except.ok.injEq, Prod.mk.injEq] at h
    obtain ⟨h1, h2⟩ := h
    subst h1
    subst h2
    exact ⟨rfl, rfl, rfl⟩
  · rw [hnt] at h
    simp only at h
    dsimp only
    by_cases hlen : (parseTagsCfg nstr).length = 0
    · rw [if_pos hlen] at h ⊢
      simp only [Option.some.injEq, Except.ok.injEq, Prod.mk.injEq] at h
      obtain ⟨h1, h2⟩ := h
      subst h1
      subst h2
      exact ⟨rfl, rfl, rfl⟩
    · rw [if_neg hlen] at h ⊢
      rcases hfind : mx.tags.find? (fun t =>
          (server_tags_of cfg).contains t || (parseTagsCfg nstr).contains t)
        with _ | t
      · simp only [hfind] at h
        simp only [Option.some.injEq, Except.ok.injEq, Prod.mk.injEq] at h
        obtain ⟨h1, h2⟩ := h
        subst h1
        subst h2
        exact ⟨rfl, rfl, rfl⟩
      · simp only [hfind] at h
        dsimp only
        by_cases hsrv : (server_tags_of cfg).contains t = true
        · rw [if_pos hsrv] at h ⊢
          rcases hs : save cfg fuel dbx
              { mx with body := mx.body ++ format_origin_line cfg }
              false none now with _ | er
          · rw [hs] at h
            cases h
          · rcases er with e | q
            · rw [hs] at h
              simp at h
            · obtain ⟨d2, mm⟩ := q
              rw [hs] at h
              simp only [Option.some.injEq, Except.ok.injEq,
                Prod.mk.injEq] at h
              obtain ⟨h1, h2⟩ := h
              subst h2
              subst h1
              have hfr := save_frame cfg now fuel dbx
                { mx with body := mx.body ++ format_origin_line cfg }
                false none d2 mm hs
              have hfree := hfr.2.2.2 hnn
              have hw := (save_wf cfg now fuel dbx
                { mx with body := mx.body ++ format_origin_line cfg }
                false none d2 mm hWFx hs).2 hnn
              have hmmidx : mm.idx = some i := by
                rw [hfree.1]
                exact hidx
              refine ⟨?_, ?_, ?_, hmmidx⟩
              · show setTable d2.transdb t (mm.idx.getD 0) (mm.idx.getD 0) =
                  setTable dbx.transdb t i i
                rw [hw.1, hmmidx, Option.getD_some]
              · exact hw.2
              · show mm.body = mx.body ++ format_origin_line cfg
                exact hfree.2.2.2
        · rw [if_neg hsrv] at h ⊢
          simp only [Option.some.injEq, Except.ok.injEq, Prod.mk.injEq] at h
          obtain ⟨h1, h2⟩ := h
          subst h2
          subst h1
          refine ⟨?_, rfl, rfl, hidx⟩
          show setTable dbx.queuedb t (mx.idx.getD 0) t =
            setTable dbx.queuedb t i t
          rw [hidx, Option.getD_some]

/-- C3: the network dispatch of `save` acts only on a completed save that was
new and not suppressed by `noqueue` — otherwise the transit tables, the queue
tables and the body are unchanged — and on such a save it performs exactly
the single action described by `DispatchSpec` for the first qualifying tag:
origin line and transit-table entry `id -> id` for a server tag, else a
queue-table entry `id -> tag` with the body untouched. -/
theorem save_dispatch_policy (cfg : Config) (now : Nat) (fuel : Nat)
    (db : DB) (m : Msg) (nq : Bool) (ct : Option Nat) (db' : DB) (m' : Msg)
    (hWF : WF db)
    (hok : save cfg fuel db m nq ct now = some (Except.ok (db', m'))) :
    if nq || !(isNewMsg m) then
      db'.transdb = db.transdb ∧ db'.queuedb = db.queuedb ∧ m'.body = m.body
    else
      DispatchSpec cfg m.tags (nextIdx db) db.transdb db.queuedb m.body db' m' := by
  cases hnewv : isNewMsg m
  · simp only [Bool.not_false, Bool.or_true, if_true]
    have h1 := (save_wf cfg now fuel db m nq ct db' m' hWF hok).2 hnewv
    have h2 := ((save_frame cfg now fuel db m nq ct db' m' hok).2.2.2 hnewv).2.2.2
    exact ⟨h1.1, h1.2, h2⟩
  · cases nq with
    | true =>
      simp only [Bool.true_or, if_true]
      cases fuel with
      | zero =>
        rw [save] at hok
        cases hok
      | succ fuel =>
        rw [save] at hok
        have hWF2 : ∀ r ∈ setAssoc db.msgdb (nextIdx db)
            { m with idx := some (nextIdx db), ctime := ct.getD m.ctime,
                     stime := some (ct.getD now) },
            r.2.idx = some r.1 ∧ r.2.stime.isSome = true :=
          WF_setAssoc hWF rfl rfl
        have hWF2d : WF (DB.mk (setAssoc db.msgdb (nextIdx db)
            { m with idx := some (nextIdx db), ctime := ct.getD m.ctime,
                     stime := some (ct.getD now) })
            (reconcileTags db.tagdb m.tags (nextIdx db))
            db.transdb db.queuedb) := hWF2
        simp only [persistStep, hnewv, if_true, Bool.not_true, Bool.or_false,
          Option.getD_some] at hok
        split at hok
        · simp at hok
        · split at hok
          · simp only [Option.some.injEq, Except.ok.injEq, Prod.mk.injEq] at hok
            obtain ⟨h1, h2⟩ := hok
            subst h1
            subst h2
            exact ⟨rfl, rfl, rfl⟩
          · next p hp =>
            split at hok
            · simp at hok
            · next pm hpm =>
              have hpmWF := hWF2 (p, pm) (getAssoc_mem _ _ _ hpm)
              split at hok
              · split at hok
                · cases hok
                · simp at hok
                · next q hrec =>
                  have hnew2 : isNewMsg
                      { pm with children := addId pm.children (nextIdx db) } = false :=
                    isNew_false_of (show pm.idx = some p from hpmWF.1) hpmWF.2
                  have hw := (save_wf cfg now fuel _ _ false none q.1 q.2
                    hWF2d hrec).2 hnew2
                  simp only [Option.some.injEq, Except.ok.injEq,
                    Prod.mk.injEq] at hok
                  obtain ⟨h1, h2⟩ := hok
                  subst h1
                  subst h2
                  exact ⟨hw.1, hw.2, rfl⟩
              · simp only [Option.some.injEq, Except.ok.injEq,
                  Prod.mk.injEq] at hok
                obtain ⟨h1, h2⟩ := hok
                subst h1
                subst h2
                exact ⟨rfl, rfl, rfl⟩
    | false =>
      simp only [Bool.not_true, Bool.or_false, if_false]
      cases fuel with
      | zero =>
        rw [save] at hok
        cases hok
      | succ fuel =>
        rw [save] at hok
        have hWF2 : ∀ r ∈ setAssoc db.msgdb (nextIdx db)
            { m with idx := some (nextIdx db), ctime := ct.getD m.ctime,
                     stime := some (ct.getD now) },
            r.2.idx = some r.1 ∧ r.2.stime.isSome = true :=
          WF_setAssoc hWF rfl rfl
        have hWF2d : WF (DB.mk (setAssoc db.msgdb (nextIdx db)
            { m with idx := some (nextIdx db), ctime := ct.getD m.ctime,
                     stime := some (ct.getD now) })
            (reconcileTags db.tagdb m.tags (nextIdx db))
            db.transdb db.queuedb) := hWF2
        simp only [persistStep, hnewv, if_true, Bool.not_true, Bool.or_false,
          Option.getD_some] at hok
        split at hok
        · simp at hok
        · split at hok
          · exact dispatch_precise_frame cfg now fuel
              (DB.mk (setAssoc db.msgdb (nextIdx db)
                { m with idx := some (nextIdx db), ctime := ct.getD m.ctime,
                         stime := some (ct.getD now) })
                (reconcileTags db.tagdb m.tags (nextIdx db))
                db.transdb db.queuedb)
              { m with idx := some (nextIdx db), ctime := ct.getD m.ctime,
                       stime := some (ct.getD now) }
              db' m' (nextIdx db) hWF2d rfl rfl hok
          · next p hp =>
            split at hok
            · simp at hok
            · next pm hpm =>
              have hpmWF := hWF2 (p, pm) (getAssoc_mem _ _ _ hpm)
              split at hok
              · split at hok
                · cases hok
                · simp at hok
                · next q hrec =>
                  have hnew2 : isNewMsg
                      { pm with children := addId pm.children (nextIdx db) } = false :=
                    isNew_false_of (show pm.idx = some p from hpmWF.1) hpmWF.2
                  have hw := (save_wf cfg now fuel _ _ false none q.1 q.2
                    hWF2d hrec).2 hnew2
                  have hWFq := (save_wf cfg now fuel _ _ false none q.1 q.2
                    hWF2d hrec).1
                  have hprec := dispatch_precise_frame cfg now fuel q.1
                    { m with idx := some (nextIdx db), ctime := ct.getD m.ctime,
                             stime := some (ct.getD now) }
                    db' m' (nextIdx db) hWFq rfl rfl hok
                  rw [hw.1, hw.2] at hprec
                  exact hprec
              · have hWF3d : WF (DB.mk (setAssoc (setAssoc db.msgdb (nextIdx db)
                    { m with idx := some (nextIdx db), ctime := ct.getD m.ctime,
                             stime := some (ct.getD now) }) (nextIdx db)
                    { m with idx := some (nextIdx db), ctime := ct.getD m.ctime,
                             stime := some (ct.getD now), parent := none })
                    (reconcileTags db.tagdb m.tags (nextIdx db))
                    db.transdb db.queuedb) :=
                  forall_mem_setAssoc _ _ _ hWF2 ⟨rfl, rfl⟩
                exact dispatch_precise_frame cfg now fuel
                  (DB.mk (setAssoc (setAssoc db.msgdb (nextIdx db)
                    { m with idx := some (nextIdx db), ctime := ct.getD m.ctime,
                             stime := some (ct.getD now) }) (nextIdx db)
                    { m with idx := some (nextIdx db), ctime := ct.getD m.ctime,
                             stime := some (ct.getD now), parent := none })
                    (reconcileTags db.tagdb m.tags (nextIdx db))
                    db.transdb db.queuedb)
                  { m with idx := some (nextIdx db), ctime := ct.getD m.ctime,
                           stime := some (ct.getD now), parent := none }
                  db' m' (nextIdx db) hWF3d rfl rfl hok

/-- The configuration of the C3 witness: one hosted network `local` and one
remote network `fido`. -/
def cfgW3 : Config := ⟨some "fido", some "local", none, "x84"⟩

/-- A fresh message tagged for the hosted network `local`. -/
def mW3 : Msg := ⟨none, 1, none, none, none, "s", "b", ["local"], [], none⟩

/-- Witness for C3: saving `mW3` under `cfgW3` takes exactly the server-tag
action — origin line appended and a `0 -> 0` transit entry for `local` — as
`DispatchSpec` prescribes. -/
theorem save_dispatch_policy_witness :
    WF dbEmpty ∧ isNewMsg mW3 = true
    ∧ (∃ db' m', save cfgW3 2 dbEmpty mW3 false none 7 =
        some (Except.ok (db', m'))
      ∧ DispatchSpec cfgW3 mW3.tags (nextIdx dbEmpty) dbEmpty.transdb
          dbEmpty.queuedb mW3.body db' m'
      ∧ db'.transdb = [("local", [(0, 0)])]
      ∧ m'.body = "b\r\n---\r\nSent from x84") := by
  have hok : save cfgW3 2 dbEmpty mW3 false none 7 =
      some (Except.ok (⟨[(0, ⟨some 0, 1, some 7, none, none, "s",
        "b\r\n---\r\nSent from x84", ["local"], [], none⟩)],
        [("local", [0])], [("local", [(0, 0)])], []⟩,
        ⟨some 0, 1, some 7, none, none, "s",
          "b\r\n---\r\nSent from x84", ["local"], [], none⟩)) := by
    decide
  refine ⟨by decide, rfl, _, _, hok, ?_, rfl, rfl⟩
  exact save_dispatch_policy cfgW3 7 2 dbEmpty mW3 false none _ _
    (by decide) hok

end ClaimC3

section ClaimC8

/-- Record 1 of a three-message reply cycle: its parent is 2. -/
def rCyc1 : Msg := ⟨some 1, 0, some 1, none, none, "", "", [], [3], some 2⟩

/-- Record 2 of the cycle: its parent is 3. -/
def rCyc2 : Msg := ⟨some 2, 0, some 1, none, none, "", "", [], [1], some 3⟩

/-- Record 3 of the cycle: its parent is 1, closing the cycle. -/
def rCyc3 : Msg := ⟨some 3, 0, some 1, none, none, "", "", [], [2], some 1⟩

/-- A well-formed store whose three records form a parent cycle
1 -> 2 -> 3 -> 1 with the children links already populated. -/
def dbCyc : DB := ⟨[(1, rCyc1), (2, rCyc2), (3, rCyc3)], [], [], []⟩

theorem cyc_save_none : ∀ fuel,
    save cfgPlain fuel dbCyc rCyc1 false none 0 = none
    ∧ save cfgPlain fuel dbCyc rCyc2 false none 0 = none
    ∧ save cfgPlain fuel dbCyc rCyc3 false none 0 = none := by
  intro fuel
  induction fuel with
  | zero => exact ⟨rfl, rfl, rfl⟩
  | succ fuel ih =>
    refine ⟨?_, ?_, ?_⟩
    · rw [show save cfgPlain (fuel+1) dbCyc rCyc1 false none 0 =
        (match save cfgPlain fuel dbCyc rCyc2 false none 0 with
         | none => none
         | some (Except.error e) => some (Except.error e)
         | some (Except.ok q) => some (Except.ok (q.1, rCyc1))) from rfl]
      rw [ih.2.1]
    · rw [show save cfgPlain (fuel+1) dbCyc rCyc2 false none 0 =
        (match save cfgPlain fuel dbCyc rCyc3 false none 0 with
         | none => none
         | some (Except.error e) => some (Except.error e)
         | some (Except.ok q) => some (Except.ok (q.1, rCyc2))) from rfl]
      rw [ih.2.2]
    · rw [show save cfgPlain (fuel+1) dbCyc rCyc3 false none 0 =
        (match save cfgPlain fuel dbCyc rCyc1 false none 0 with
         | none => none
         | some (Except.error e) => some (Except.error e)
         | some (Except.ok q) => some (Except.ok (q.1, rCyc3))) from rfl]
      rw [ih.1]

/-- Counterexample to C8 as stated: on a well-formed store whose three
records form the parent cycle 1 -> 2 -> 3 -> 1, saving record 1 neither
completes nor raises any error within a recursion budget of 300 nested
saves — the thread-update step just keeps re-saving the ancestors, so no
cycle is detected and no fatal consistency error is reported. -/
theorem save_cycle_counterexample :
    rCyc1.parent = some 2 ∧ rCyc2.parent = some 3 ∧ rCyc3.parent = some 1
    ∧ WF dbCyc
    ∧ save cfgPlain 300 dbCyc rCyc1 false none 0 = none :=
  ⟨rfl, rfl, rfl, by decide, (cyc_save_none 300).1⟩

/-- C8 (amended): the thread-update step of `save` has no guard against
re-visiting an index already on the current save call stack; on a cyclic
parent chain the parent re-save recurses without bound, so the save fails to
complete for every finite recursion budget and never raises a
cycle-detection error.  (Termination holds only when the parent chain is
acyclic, where the recursion depth is bounded by the chain length.) -/
theorem save_cycle_never_terminates :
    ∀ fuel, save cfgPlain fuel dbCyc rCyc1 false none 0 = none :=
  fun fuel => (cyc_save_none fuel).1

end ClaimC8

end Msgbase
